import Mathlib

/-!
# Verification of the `concurrent` synchronisation primitives

Shallow embedding of `blocking_queue.hpp`, `channel.hpp`, `mutex.cpp` and
`static_thread_pool.cpp`.  Every member function that runs under the queue
mutex, and every single atomic operation of the spinlocks, is one step of a
step function `State → Event → Option State`; `none` means that the step is
not enabled in that state (the calling thread is suspended, or the event is
not one the thread can perform at that point of its code).  An execution is a
finite list of events run from the initial state.
-/

namespace concurrent

/-- Runs a list of events from a state; `none` as soon as one event is not enabled. -/
def runTrace {σ ε : Type} (step : σ → ε → Option σ) : σ → List ε → Option σ
  | s, [] => some s
  | s, e :: es => (step s e).bind (fun s' => runTrace step s' es)

/-! ## `BlockingQueue<T>` (blocking_queue.hpp) -/

/-- The class `BlockingQueue<T>`: the deque `buffer_`.  The members `mutex_` and
`not_empty_` carry no data; they are what makes each member function below one
atomic step on `buffer_`. -/
structure BlockingQueue (T : Type) where
  buffer_ : List T
deriving DecidableEq, Repr

namespace BlockingQueue

variable {T : Type}

/-- A default-constructed queue. -/
def empty : BlockingQueue T := ⟨[]⟩

/-- Member `TakeLocked()`: moves `buffer_.front()` out and pops it.  On an empty deque
`front()` has no defined result, rendered as `none`. -/
def TakeLocked (q : BlockingQueue T) : Option (T × BlockingQueue T) :=
  match q.buffer_ with
  | [] => none
  | result :: rest => some (result, ⟨rest⟩)

/-- Member `Take()`: while `buffer_.empty()` the caller waits on `not_empty_` (the
step is not enabled, `none`); otherwise `TakeLocked()`. -/
def Take (q : BlockingQueue T) : Option (T × BlockingQueue T) :=
  if q.buffer_.isEmpty then none else q.TakeLocked

/-- Member `Put(value)`: `buffer_.push_back(value)`; `notify_one()` changes no data. -/
def Put (q : BlockingQueue T) (value : T) : BlockingQueue T :=
  ⟨q.buffer_ ++ [value]⟩

end BlockingQueue

/-- One call on a shared queue, by the thread with the given number. -/
inductive QueueOp (T : Type) where
  | Put (thread : Nat) (value : T)
  | Take (thread : Nat)
deriving DecidableEq, Repr

/-- A queue together with the history of the execution so far: the values in
the order their `Put` ran and the values in the order `Take` returned them. -/
structure QueueRun (T : Type) where
  queue : BlockingQueue T
  put : List T
  taken : List T
deriving DecidableEq, Repr

namespace QueueRun

variable {T : Type}

/-- A freshly constructed queue, nothing put or taken yet. -/
def init : QueueRun T := ⟨BlockingQueue.empty, [], []⟩

/-- One atomic queue operation.  `Take` is enabled only on a non-empty buffer. -/
def step (s : QueueRun T) : QueueOp T → Option (QueueRun T)
  | .Put _ value => some { s with queue := s.queue.Put value, put := s.put ++ [value] }
  | .Take _ =>
    match s.queue.Take with
    | none => none
    | some (result, q) => some { s with queue := q, taken := s.taken ++ [result] }

/-- Runs a finite sequence of `Put`/`Take` calls. -/
def run (s : QueueRun T) (ops : List (QueueOp T)) : Option (QueueRun T) :=
  runTrace step s ops

end QueueRun


/-! ## Channel (channel.hpp) -/

namespace detail

/-- The class `ChannelStorage<T>`: the two queues `upline_` and `downline_`. -/
structure ChannelStorage (T : Type) where
  upline_ : BlockingQueue T
  downline_ : BlockingQueue T
deriving DecidableEq, Repr

namespace ChannelStorage

variable {T : Type}

/-- A default-constructed storage: both queues empty. -/
def empty : ChannelStorage T := ⟨BlockingQueue.empty, BlockingQueue.empty⟩

/-- Member `PushToUpline(value)`: `upline_.Put(value)`. -/
def PushToUpline (c : ChannelStorage T) (value : T) : ChannelStorage T :=
  { c with upline_ := c.upline_.Put value }

/-- Member `PushToDownline(value)`: `downline_.Put(value)`. -/
def PushToDownline (c : ChannelStorage T) (value : T) : ChannelStorage T :=
  { c with downline_ := c.downline_.Put value }

/-- Member `TakeUpline()`: `upline_.Take()`; `none` while the caller is blocked. -/
def TakeUpline (c : ChannelStorage T) : Option (T × ChannelStorage T) :=
  match c.upline_.Take with
  | none => none
  | some (value, q) => some (value, { c with upline_ := q })

/-- Member `TakeDownline()`: `downline_.Take()`; `none` while the caller is blocked. -/
def TakeDownline (c : ChannelStorage T) : Option (T × ChannelStorage T) :=
  match c.downline_.Take with
  | none => none
  | some (value, q) => some (value, { c with downline_ := q })

end ChannelStorage

end detail

/-- The enumeration `ChannelEndpoint<T>::Line`. -/
inductive Line where
  | UPLINE
  | DOWNLINE
deriving DecidableEq, Repr

/-- The class `ChannelEndpoint<T>`.  The member `channel_` points to the storage
shared by both endpoints of a channel; that storage is passed to and returned
from every operation below, so the endpoint itself keeps only `line_`. -/
structure ChannelEndpoint where
  line_ : Line
deriving DecidableEq, Repr

namespace ChannelEndpoint

variable {T : Type}

/-- Member `SendData(value)`: the `switch (line_)` of channel.hpp lines 140-148. -/
def SendData (e : ChannelEndpoint) (value : T) (channel : detail.ChannelStorage T) :
    detail.ChannelStorage T :=
  match e.line_ with
  | .UPLINE => channel.PushToUpline value
  | .DOWNLINE => channel.PushToDownline value

/-- Member `BlockingRead()`: the `switch (line_)` of channel.hpp lines 157-163; `none`
while the caller is blocked. -/
def BlockingRead (e : ChannelEndpoint) (channel : detail.ChannelStorage T) :
    Option (T × detail.ChannelStorage T) :=
  match e.line_ with
  | .UPLINE => channel.TakeDownline
  | .DOWNLINE => channel.TakeUpline

/-- The queue `BlockingRead()` of this endpoint takes from. -/
def readQueue (e : ChannelEndpoint) (channel : detail.ChannelStorage T) : BlockingQueue T :=
  match e.line_ with
  | .UPLINE => channel.downline_
  | .DOWNLINE => channel.upline_

end ChannelEndpoint

/-- The function `MakeChannel<T>()`: one fresh storage and the pair of endpoints pointing to
it, the first with role `UPLINE`, the second with role `DOWNLINE`. -/
def MakeChannel (T : Type) : detail.ChannelStorage T × ChannelEndpoint × ChannelEndpoint :=
  (detail.ChannelStorage.empty, ⟨.UPLINE⟩, ⟨.DOWNLINE⟩)

/-- The member functions that `class BlockingQueue` declares
(blocking_queue.hpp lines 13-53). -/
inductive BlockingQueue.Member where
  | Take
  | Put
  | TakeLocked
deriving DecidableEq, Repr

/-- The name under which a member is declared. -/
def BlockingQueue.Member.name : BlockingQueue.Member → String
  | .Take => "Take"
  | .Put => "Put"
  | .TakeLocked => "TakeLocked"

/-- Member lookup in `class BlockingQueue`: the member a call `queue.name()` names. -/
def BlockingQueue.lookup (name : String) : Option BlockingQueue.Member :=
  [BlockingQueue.Member.Take, .Put, .TakeLocked].find? (fun m => m.name == name)

/-- The member of `BlockingQueue` that the body of `ChannelStorage::TryTakeUpline`,
`upline_.TryTake()`, and of `TryTakeDownline`, `downline_.TryTake()`, calls. -/
def detail.ChannelStorage.TryTakeCallee : Option BlockingQueue.Member :=
  BlockingQueue.lookup "TryTake"

/-! ## Spinlocks (mutex.cpp, concurent/mutex/mutex.hpp) -/

namespace mutexes

/-- An event of an execution on one lock: one atomic operation of the running
`Lock()` call of a thread (the call starts with the first such operation), or
the `Unlock()` call of a thread. -/
inductive Event where
  | lockOp (thread : Nat)
  | unlock (thread : Nat)
deriving DecidableEq, Repr

/-- The thread that performs the event. -/
def Event.thread : Event → Nat
  | .lockOp t => t
  | .unlock t => t

/-- Whether the event is an `Unlock()`. -/
def Event.isUnlock : Event → Bool
  | .lockOp _ => false
  | .unlock _ => true

namespace tas

/-- The class `tas::SpinLock`: the flag `locked_`, an `std::atomic<bool>`. -/
structure SpinLock where
  locked_ : Bool
deriving DecidableEq, Repr

namespace SpinLock

/-- The member initialiser `locked_{false}`. -/
def new : SpinLock := ⟨false⟩

/-- The call `locked_.exchange(desired)`: returns the old value and stores the
new one. -/
def exchange (l : SpinLock) (desired : Bool) : Bool × SpinLock :=
  (l.locked_, ⟨desired⟩)

/-- The call `locked_.store(desired)`. -/
def store (_l : SpinLock) (desired : Bool) : SpinLock :=
  ⟨desired⟩

/-- One evaluation of the loop condition `locked_.exchange(true)` of `Lock()`:
the new lock and whether the loop, and with it `Lock()`, is left. -/
def LockAttempt (l : SpinLock) : Bool × SpinLock :=
  (!(l.exchange true).1, (l.exchange true).2)

/-- The call `Lock()` run by one thread with no other thread stepping, for at
most `fuel` evaluations of the loop condition: the lock once `Lock()` has
returned. -/
def Lock : Nat → SpinLock → Option SpinLock
  | 0, _ => none
  | fuel + 1, l => if l.LockAttempt.1 then some l.LockAttempt.2 else Lock fuel l.LockAttempt.2

/-- Member `Unlock()`: `locked_.store(false)`. -/
def Unlock (l : SpinLock) : SpinLock :=
  l.store false

end SpinLock

/-- Where a thread stands: not in a call, inside the loop of `Lock()`, or
between a returned `Lock()` and its `Unlock()`. -/
inductive Pc where
  | outside
  | spinning
  | holding
deriving DecidableEq, Repr

/-- One lock shared by the threads 0, 1, 2, ... -/
structure System where
  lock : SpinLock
  pc : Nat → Pc

namespace System

/-- The lock as constructed, no thread in a call. -/
def init : System := ⟨SpinLock.new, fun _ => .outside⟩

/-- Whether the thread is between a returned `Lock()` and its `Unlock()`. -/
def holds (s : System) (t : Nat) : Bool :=
  s.pc t == .holding

/-- One event.  A thread that holds the lock performs no `lockOp` (it calls
`Unlock()` first), and only the holder performs `unlock`. -/
def step (s : System) : Event → Option System
  | .lockOp t =>
    match s.pc t with
    | .holding => none
    | _ => some ⟨s.lock.LockAttempt.2,
        Function.update s.pc t (if s.lock.LockAttempt.1 then .holding else .spinning)⟩
  | .unlock t =>
    match s.pc t with
    | .holding => some ⟨s.lock.Unlock, Function.update s.pc t .outside⟩
    | _ => none

/-- Runs a list of events. -/
def run (s : System) (ops : List Event) : Option System :=
  runTrace step s ops

/-- The invariant of the test-and-set lock: the flag is set while a thread holds
the lock, and at most one thread holds it. -/
def Inv (s : System) : Prop :=
  (∀ t, s.pc t = .holding → s.lock.locked_ = true)
    ∧ ∀ a b, s.pc a = .holding → s.pc b = .holding → a = b

/-- The holder calls `Lock()` again without `Unlock()`: the first evaluation
of the loop condition of that second call. -/
def relock (s : System) (t : Nat) : Option System :=
  match s.pc t with
  | .holding => some ⟨s.lock.LockAttempt.2,
      Function.update s.pc t (if s.lock.LockAttempt.1 then .holding else .spinning)⟩
  | _ => none

end System

end tas

namespace tickets

/-- The class `tickets::SpinLock`: the counters `next_free_ticket_` and
`owner_ticket_`, both `std::atomic<std::size_t>`, here numbers below `2 ^ w`
for the width `w` of `std::size_t`. -/
structure SpinLock where
  next_free_ticket_ : Nat
  owner_ticket_ : Nat
deriving DecidableEq, Repr

namespace SpinLock

/-- The member initialisers `next_free_ticket_{0}` and `owner_ticket_{0}`. -/
def new : SpinLock := ⟨0, 0⟩

/-- The call `next_free_ticket_.fetch_add(1)`: returns the old value; the stored
sum wraps modulo `2 ^ w`. -/
def fetch_add_next (w : Nat) (l : SpinLock) : Nat × SpinLock :=
  (l.next_free_ticket_, { l with next_free_ticket_ := (l.next_free_ticket_ + 1) % 2 ^ w })

/-- The call `owner_ticket_.load()`. -/
def load_owner (l : SpinLock) : Nat :=
  l.owner_ticket_

/-- The loop condition `my_ticket != owner_ticket_.load()` of `Lock()`. -/
def mustWait (l : SpinLock) (my_ticket : Nat) : Bool :=
  my_ticket != l.load_owner

/-- The loop of `Lock()` run by one thread with no other thread stepping, for at
most `fuel` evaluations of the loop condition: whether the loop is left. -/
def spin (l : SpinLock) (my_ticket : Nat) : Nat → Bool
  | 0 => false
  | fuel + 1 => if l.mustWait my_ticket then spin l my_ticket fuel else true

/-- The call `Lock()` run by one thread with no other thread stepping, with at
most `fuel` evaluations of the loop condition: the lock once `Lock()` has
returned. -/
def Lock (w : Nat) (fuel : Nat) (l : SpinLock) : Option SpinLock :=
  if spin (l.fetch_add_next w).2 (l.fetch_add_next w).1 fuel
  then some (l.fetch_add_next w).2 else none

/-- Member `Unlock()`: `owner_ticket_.fetch_add(1)`, wrapping modulo `2 ^ w`. -/
def Unlock (w : Nat) (l : SpinLock) : SpinLock :=
  { l with owner_ticket_ := (l.owner_ticket_ + 1) % 2 ^ w }

end SpinLock

/-- Where a thread stands: not in a call, inside the loop of `Lock()` with the
local `my_ticket`, or between a returned `Lock()` and its `Unlock()`. -/
inductive Pc where
  | outside
  | waiting (my_ticket : Nat)
  | holding (my_ticket : Nat)
deriving DecidableEq, Repr

/-- Whether `Lock()` has returned and `Unlock()` has not been called yet. -/
def Pc.isHolding : Pc → Bool
  | .holding _ => true
  | _ => false

/-- The ticket the thread drew in its running or last returned `Lock()`. -/
def Pc.ticket : Pc → Option Nat
  | .outside => none
  | .waiting k => some k
  | .holding k => some k

/-- One lock shared by threads, with the history of the execution: the threads
in the order of their `fetch_add` on `next_free_ticket_`, the threads in the
order in which their `Lock()` returned, and the number of `Unlock()` calls. -/
structure System where
  lock : SpinLock
  pc : Nat → Pc
  drew : List Nat
  granted : List Nat
  unlocks : Nat

namespace System

/-- The lock as constructed, no thread in a call, empty history. -/
def init : System := ⟨SpinLock.new, fun _ => .outside, [], [], 0⟩

/-- Whether the thread is between a returned `Lock()` and its `Unlock()`. -/
def holds (s : System) (t : Nat) : Bool :=
  (s.pc t).isHolding

/-- The threads that drew a ticket and have not unlocked since, in draw order. -/
def inFlight (s : System) : List Nat :=
  s.drew.drop s.unlocks

/-- One event of a system of the threads `0 .. n-1`, `std::size_t` being `w` bits
wide.  The first `lockOp` of a call is the `fetch_add`, each later one is one
evaluation of the loop condition.  A thread that holds the lock performs no
`lockOp`, and only the holder performs `unlock`. -/
def step (w n : Nat) (s : System) : Event → Option System
  | .lockOp t =>
    if t < n then
      match s.pc t with
      | .outside => some { s with
          lock := (s.lock.fetch_add_next w).2
          pc := Function.update s.pc t (.waiting (s.lock.fetch_add_next w).1)
          drew := s.drew ++ [t] }
      | .waiting my_ticket =>
        if s.lock.mustWait my_ticket then some s
        else some { s with
          pc := Function.update s.pc t (.holding my_ticket)
          granted := s.granted ++ [t] }
      | .holding _ => none
    else none
  | .unlock t =>
    match s.pc t with
    | .holding _ => some { s with
        lock := s.lock.Unlock w
        pc := Function.update s.pc t .outside
        unlocks := s.unlocks + 1 }
    | _ => none

/-- Runs a list of events. -/
def run (w n : Nat) (s : System) (ops : List Event) : Option System :=
  runTrace (step w n) s ops

/-- The holder calls `Lock()` again without `Unlock()`: the `fetch_add` of that
second call. -/
def relock (w : Nat) (s : System) (t : Nat) : Option System :=
  match s.pc t with
  | .holding _ => some { s with
      lock := (s.lock.fetch_add_next w).2
      pc := Function.update s.pc t (.waiting (s.lock.fetch_add_next w).1)
      drew := s.drew ++ [t] }
  | _ => none

/-- All threads of the list wait, with consecutive tickets from `base` on. -/
def Waiting (w : Nat) (pc : Nat → Pc) : Nat → List Nat → Prop
  | _, [] => True
  | base, t :: ts => pc t = .waiting (base % 2 ^ w) ∧ Waiting w pc (base + 1) ts

/-- The threads in flight hold consecutive tickets from `owner_ticket_` on, and
only the first of them may have returned from `Lock()`. -/
def Served (w : Nat) (pc : Nat → Pc) (base : Nat) : List Nat → Prop
  | [] => True
  | t :: ts => (pc t = .waiting (base % 2 ^ w) ∨ pc t = .holding (base % 2 ^ w))
      ∧ Waiting w pc (base + 1) ts

/-- Whether the first thread in flight has returned from `Lock()`. -/
def headHolds (pc : Nat → Pc) : List Nat → Bool
  | [] => false
  | t :: _ => (pc t).isHolding

/-- The invariant of the ticket lock run by the threads `0 .. n-1`. -/
structure Inv (w n : Nat) (s : System) : Prop where
  unlocks_le : s.unlocks ≤ s.drew.length
  owner_eq : s.lock.owner_ticket_ = s.unlocks % 2 ^ w
  next_eq : s.lock.next_free_ticket_ = s.drew.length % 2 ^ w
  nodup : s.inFlight.Nodup
  mem_iff : ∀ t, t ∈ s.inFlight ↔ s.pc t ≠ .outside
  lt_n : ∀ t ∈ s.inFlight, t < n
  served : Served w s.pc s.unlocks s.inFlight
  granted_eq : s.granted = s.drew.take (s.unlocks + if headHolds s.pc s.inFlight then 1 else 0)

end System

/-- One uncontended `Lock(); Unlock();` of a thread: the `fetch_add`, one
evaluation of the loop condition, the `Unlock()`. -/
def cycle (t : Nat) : List Event :=
  [.lockOp t, .lockOp t, .unlock t]

/-- The events of `k` uncontended `Lock(); Unlock();` in a row by one thread. -/
def cycles (t : Nat) : Nat → List Event
  | 0 => []
  | k + 1 => cycle t ++ cycles t k

end tickets

end mutexes

/-! ## Threads incrementing a shared counter under a lock

The client program of the mutual-exclusion property: each of the threads
`0 .. n-1` runs `for (i = 0; i < K; i++) { Lock(); counter = counter + 1; Unlock(); }`
on one shared lock and one shared plain counter; the increment is a read
followed by a write, so that an update can be lost without the lock. -/

namespace mutexes

/-- Where a thread stands inside `counter = counter + 1`: before the read,
after the read with the value read, or after the write. -/
inductive Body where
  | start
  | loaded (value : Nat)
  | stored
deriving DecidableEq, Repr

/-- What the current iteration of a thread has added to the counter. -/
def Body.credit : Body → Nat
  | .stored => 1
  | _ => 0

/-- An event of the counter program: an atomic operation of `Lock()`, the read
of the counter, the write of the counter, or `Unlock()`. -/
inductive RaceEvent where
  | lockOp (thread : Nat)
  | read (thread : Nat)
  | write (thread : Nat)
  | unlock (thread : Nat)
deriving DecidableEq, Repr

/-- The lock system of type `σ`, the shared counter, and per thread the place
inside the increment and the number of finished iterations. -/
structure Race (σ : Type) where
  sys : σ
  counter : Nat
  body : Nat → Body
  done : Nat → Nat

namespace Race

variable {σ : Type}

/-- The counter is 0 and no thread has started. -/
def init (sys : σ) : Race σ := ⟨sys, 0, fun _ => .start, fun _ => 0⟩

/-- One event of the counter program of `n` threads with `K` iterations each,
over a lock with step function `lstep` and holder test `holds`.  A thread
starts `Lock()` only while it has iterations left, reads the counter only once
its `Lock()` has returned, writes what it read plus one, and calls `Unlock()`
after the write. -/
def step (lstep : σ → Event → Option σ) (holds : σ → Nat → Bool) (n K : Nat) (r : Race σ) :
    RaceEvent → Option (Race σ)
  | .lockOp t =>
    if t < n ∧ r.done t < K then
      match lstep r.sys (.lockOp t) with
      | some sys => some { r with sys := sys }
      | none => none
    else none
  | .read t =>
    if holds r.sys t = true ∧ r.body t = .start then
      some { r with body := Function.update r.body t (.loaded r.counter) }
    else none
  | .write t =>
    match r.body t with
    | .loaded value => some { r with
        counter := value + 1
        body := Function.update r.body t .stored }
    | _ => none
  | .unlock t =>
    match r.body t with
    | .stored =>
      match lstep r.sys (.unlock t) with
      | some sys => some { r with
          sys := sys
          body := Function.update r.body t .start
          done := Function.update r.done t (r.done t + 1) }
      | none => none
    | _ => none

/-- The iterations a thread has finished plus what its current one has added. -/
def score (r : Race σ) (t : Nat) : Nat :=
  r.done t + (r.body t).credit

/-- The invariant of the counter program over a lock with invariant `I`. -/
structure Inv (holds : σ → Nat → Bool) (I : σ → Prop) (n K : Nat) (r : Race σ) : Prop where
  sys_inv : I r.sys
  in_body : ∀ t, r.body t ≠ .start → holds r.sys t = true
  loaded_eq : ∀ t v, r.body t = .loaded v → v = r.counter
  holder : ∀ t, holds r.sys t = true → t < n ∧ r.done t < K
  total : r.counter = ∑ t in Finset.range n, r.score t

end Race

/-- What the counter program needs of a lock: an invariant `I` kept by every
step under which at most one thread holds the lock, and that a `lockOp` or
`unlock` of one thread changes who holds the lock only for that thread. -/
structure LockLaws {σ : Type} (lstep : σ → Event → Option σ) (holds : σ → Nat → Bool)
    (I : σ → Prop) : Prop where
  step_inv : ∀ s s' e, I s → lstep s e = some s' → I s'
  mutex : ∀ s a b, I s → holds s a = true → holds s b = true → a = b
  lock_pre : ∀ s s' t, lstep s (.lockOp t) = some s' → holds s t = false
  lock_frame : ∀ s s' t u, lstep s (.lockOp t) = some s' → u ≠ t → holds s' u = holds s u
  unlock_post : ∀ s s' t, lstep s (.unlock t) = some s' → holds s t = true ∧ holds s' t = false
  unlock_frame : ∀ s s' t u, lstep s (.unlock t) = some s' → u ≠ t → holds s' u = holds s u

namespace tas

/-- The counter program over the test-and-set lock. -/
def race (n K : Nat) (ops : List RaceEvent) : Option (Race System) :=
  runTrace (Race.step System.step System.holds n K) (Race.init System.init) ops

end tas

namespace tickets

/-- The counter program over the ticket lock, `std::size_t` being `w` bits wide. -/
def race (w n K : Nat) (ops : List RaceEvent) : Option (Race System) :=
  runTrace (Race.step (System.step w n) System.holds n K) (Race.init System.init) ops

end tickets

end mutexes

/-! ## `StaticThreadPool` (static_thread_pool.cpp) -/

/-- The type `StaticThreadPool::TaskType`, that is `std::function<void()>`: `none` is the
empty function, for which `!task` holds; `some id` is a callable whose call
records `id`. -/
abbrev TaskType := Option Nat

/-- Where the thread that calls `Join()` stands: not inside `Join()`, in the
first loop having put `i` poison pills, or in the second loop having joined
`i` workers. -/
inductive JoinPc where
  | outside
  | putting (i : Nat)
  | joining (i : Nat)
deriving DecidableEq, Repr

/-- How a call of `Join()` ended: it returned, or `std::thread::join()` raised
`std::system_error`, which leaves `Join()` as an exception. -/
inductive JoinOutcome where
  | returned
  | threw
deriving DecidableEq, Repr

/-- The class `StaticThreadPool`: the number of threads in `workers_` and the
queue `tasks_`; per worker thread whether its `WorkerRoutine()` has returned,
whether its `std::thread` is still joinable, and its local variable `task`
between the return of `tasks_.Take()` and the end of the call `task()`
(`running`, `none` while the worker is at `Take()`); the record the invoked
tasks write to; and the history of the execution: the tasks of the `submit`
events (written by `step` from the event, not by `SubmitTask`), the items put
into and taken from `tasks_`, the number of poison pills `Join()` has put, the
number of empty tasks each worker has taken, and how the calls of `Join()`
ended. -/
structure StaticThreadPool where
  workers_ : Nat
  tasks_ : BlockingQueue TaskType
  exited : Nat → Bool
  joinable : Nat → Bool
  running : Nat → Option Nat
  record : List Nat
  submitted : List TaskType
  put : List TaskType
  taken : List TaskType
  pills : Nat
  stops : Nat → Nat
  caller : JoinPc
  outcomes : List JoinOutcome

/-- An event of a pool execution: a call `SubmitTask(task)`, the next step of
`WorkerRoutine()` in a worker (its `tasks_.Take()`, or the call `task()` of the
task it has taken), the call of `Join()`, or the next step of the thread inside
`Join()`. -/
inductive PoolEvent where
  | submit (task : TaskType)
  | work (worker : Nat)
  | callJoin
  | joinStep
deriving DecidableEq, Repr

namespace StaticThreadPool

/-- Member `StartWorkers(workers_num)`: `workers_num` times
`workers_.emplace_back(...)`, each starting a thread that runs
`WorkerRoutine()`. -/
def StartWorkers (p : StaticThreadPool) (workers_num : Nat) : StaticThreadPool :=
  { p with workers_ := workers_num + p.workers_ }

/-- The constructor `StaticThreadPool(workers_num)`: the members as default
constructed (no thread, empty queue, every thread to come joinable and
running), then `StartWorkers(workers_num)`. -/
def new (workers_num : Nat) : StaticThreadPool :=
  StartWorkers
    { workers_ := 0
      tasks_ := BlockingQueue.empty
      exited := fun _ => false
      joinable := fun _ => true
      running := fun _ => none
      record := []
      submitted := []
      put := []
      taken := []
      pills := 0
      stops := fun _ => 0
      caller := .outside
      outcomes := [] }
    workers_num

/-- Member `SubmitTask(task)`: `tasks_.Put(task)`. -/
def SubmitTask (p : StaticThreadPool) (task : TaskType) : StaticThreadPool :=
  { p with
    tasks_ := p.tasks_.Put task
    put := p.put ++ [task] }

/-- The next step of `WorkerRoutine()` in worker `i`.  At the top of the loop:
`auto task = tasks_.Take()` (`none` while it blocks) and the test `if (!task)
break;`, after which the worker has left or holds the task; `Take()` has
released the queue mutex when it returns, so other threads step between this
and the call.  Holding a task: the call `task()`, which records the task, and
back to the top of the loop. -/
def WorkerRoutine (p : StaticThreadPool) (i : Nat) : Option StaticThreadPool :=
  match p.running i with
  | some id => some { p with
      record := p.record ++ [id]
      running := Function.update p.running i none }
  | none =>
    match p.tasks_.Take with
    | none => none
    | some (none, q) => some { p with
        tasks_ := q
        taken := p.taken ++ [none]
        exited := Function.update p.exited i true
        stops := Function.update p.stops i (p.stops i + 1) }
    | some (some id, q) => some { p with
        tasks_ := q
        taken := p.taken ++ [some id]
        running := Function.update p.running i (some id) }

/-- The next step of the thread inside `Join()`.  In the first loop one
`tasks_.Put({})` per worker.  In the second loop `worker.join()`: on a joinable
thread it waits until the thread function has returned (`none` until then) and
leaves the thread not joinable; on a thread that is not joinable it raises
`std::system_error`, as the C++ standard specifies for `std::thread::join`. -/
def Join (p : StaticThreadPool) : Option StaticThreadPool :=
  match p.caller with
  | .outside => none
  | .putting i =>
    if i < p.workers_ then
      some { p with
        tasks_ := p.tasks_.Put none
        put := p.put ++ [none]
        pills := p.pills + 1
        caller := .putting (i + 1) }
    else some { p with caller := .joining 0 }
  | .joining i =>
    if i < p.workers_ then
      if p.joinable i then
        if p.exited i then
          some { p with
            joinable := Function.update p.joinable i false
            caller := .joining (i + 1) }
        else none
      else some { p with caller := .outside, outcomes := p.outcomes ++ [.threw] }
    else some { p with caller := .outside, outcomes := p.outcomes ++ [.returned] }

/-- One event of a pool execution.  The task of a `submit` event is added to
the history `submitted` here. -/
def step (p : StaticThreadPool) : PoolEvent → Option StaticThreadPool
  | .submit task => some { p.SubmitTask task with submitted := p.submitted ++ [task] }
  | .work i => if i < p.workers_ ∧ p.exited i = false then p.WorkerRoutine i else none
  | .callJoin =>
    match p.caller with
    | .outside => some { p with caller := .putting 0 }
    | _ => none
  | .joinStep => p.Join

/-- Runs a list of events. -/
def run (p : StaticThreadPool) (ops : List PoolEvent) : Option StaticThreadPool :=
  runTrace step p ops

end StaticThreadPool

/-- The tasks passed to `SubmitTask` by the `submit` events of a list of
events, in order. -/
def submittedTasks (ops : List PoolEvent) : List TaskType :=
  ops.filterMap (fun e => match e with
    | .submit task => some task
    | _ => none)

/-- The events before `Join()` is called: `SubmitTask` of a non-empty task, and
worker steps. -/
def PoolEvent.beforeJoin : PoolEvent → Bool
  | .submit (some _) => true
  | .work _ => true
  | _ => false

/-- The events while `Join()` runs: steps of `Join()`, and worker steps. -/
def PoolEvent.duringJoin : PoolEvent → Bool
  | .joinStep => true
  | .work _ => true
  | _ => false

namespace StaticThreadPool

/-- What holds of the thread inside or outside `Join()` in an execution with a
single `Join()`: before it no pill is put and no worker has left; in the first
loop the pills count the turns; in the second loop the workers joined so far
have left and are not joinable any more; after it all workers have. -/
def JoinCtrl (p : StaticThreadPool) : Prop :=
  match p.caller with
  | .outside =>
    (p.outcomes = [] ∧ p.pills = 0)
      ∨ (p.outcomes = [.returned] ∧ p.pills = p.workers_
          ∧ ∀ i, i < p.workers_ → p.exited i = true)
  | .putting j => p.outcomes = [] ∧ p.pills = j ∧ j ≤ p.workers_
  | .joining j => p.outcomes = [] ∧ p.pills = p.workers_ ∧ j ≤ p.workers_
      ∧ ∀ i, i < j → p.exited i = true

/-- The invariant of an execution with a single `Join()` after all tasks were
submitted: the queue holds the tasks not yet taken followed by the pills not
yet taken; every submitted task is, as often as it was submitted, recorded, or
held by a worker, or queued; what was put is the tasks submitted followed by
the pills; a worker has left exactly if it has taken one pill, and then holds
no task; once a pill is taken no task is queued; a worker that `Join()` has
not gone past is joinable. -/
structure SingleJoin (p : StaticThreadPool) : Prop where
  queue : ∃ tasks k, p.tasks_.buffer_ = tasks.map some ++ List.replicate k none
    ∧ k + ∑ i in Finset.range p.workers_, p.stops i = p.pills
    ∧ (0 < ∑ i in Finset.range p.workers_, p.stops i → tasks = [])
    ∧ ∃ ids : List Nat, p.submitted = ids.map some
      ∧ ∀ id, p.record.count id
          + ∑ i in Finset.range p.workers_, (if p.running i = some id then 1 else 0)
          + tasks.count id = ids.count id
  put_eq : p.put = p.submitted ++ List.replicate p.pills none
  stops_eq : ∀ i, p.stops i = if p.exited i then 1 else 0
  idle : ∀ i, p.exited i = true → p.running i = none
  joinable_all : ∀ i, p.outcomes = [] → (∀ j, p.caller = .joining j → j ≤ i) →
    p.joinable i = true
  ctrl : p.JoinCtrl

/-- A bound on the number of steps of `Join()` and of workers that can still
follow while `Join()` runs: twice the length of the queue, plus the number of
workers that hold a task, plus what `Join()` itself has left to do. -/
def joinMeasure (p : StaticThreadPool) : Nat :=
  2 * p.tasks_.buffer_.length
    + ∑ i in Finset.range p.workers_, (if (p.running i).isSome then 1 else 0)
    + match p.caller with
      | .outside => 0
      | .putting j => 3 * (p.workers_ - j) + p.workers_ + 2
      | .joining j => p.workers_ - j + 1

/-- The invariant of every execution: what was taken followed by what is queued
is what was put; a worker that has left holds no task; the thread inside
`Join()` went only past workers that have left and has left them not joinable;
and after a `Join()` that returned every worker has left and none is joinable. -/
structure Always (p : StaticThreadPool) : Prop where
  fifo : p.taken ++ p.tasks_.buffer_ = p.put
  idle : ∀ i, p.exited i = true → p.running i = none
  joined : ∀ j, p.caller = .joining j → ∀ i, i < j →
    p.joinable i = false ∧ p.exited i = true
  after : JoinOutcome.returned ∈ p.outcomes → ∀ i, i < p.workers_ →
    p.joinable i = false ∧ p.exited i = true

/-- The invariant of an execution of a pool with one worker: what was taken is
the tasks run, then the task the worker holds, then the empty task on which
the worker has left. -/
def OneWorker (p : StaticThreadPool) : Prop :=
  p.workers_ = 1
    ∧ p.taken = (p.record ++ (p.running 0).toList).map some
        ++ (if p.exited 0 then [none] else [])

/-- What holds in every state after a `Join()` of the pool `p0` has returned
and while no worker can step any more: the workers have left and are not
joinable, nothing more was taken or recorded, what was put since is still
queued behind what was queued, a running `Join()` is in its first loop or at
the first worker of its second loop, and every `Join()` since has ended the
same way, `how`. -/
structure AfterJoin (p0 : StaticThreadPool) (how : JoinOutcome) (q : StaticThreadPool) :
    Prop where
  workers : q.workers_ = p0.workers_
  gone : ∀ i, i < q.workers_ → q.joinable i = false ∧ q.exited i = true
  taken_eq : q.taken = p0.taken
  record_eq : q.record = p0.record
  queued : ∃ l, q.put = p0.put ++ l ∧ q.tasks_.buffer_ = p0.tasks_.buffer_ ++ l
  first : ∀ j, q.caller = .joining j → j = 0
  outcomes_eq : ∃ k, q.outcomes = p0.outcomes ++ List.replicate k how

end StaticThreadPool
/-! # Theorems -/


/-- An invariant kept by every enabled step holds after every run. -/
theorem runTrace_invariant {σ ε : Type} (step : σ → ε → Option σ) (P : σ → Prop)
    (ops : List ε)
    (hstep : ∀ e ∈ ops, ∀ a b, P a → step a e = some b → P b) :
    ∀ s s', P s → runTrace step s ops = some s' → P s' := by
  induction ops with
  | nil =>
    intro s s' hs h
    simp only [runTrace, Option.some.injEq] at h
    exact h ▸ hs
  | cons e es ih =>
    intro s s' hs h
    simp only [runTrace] at h
    cases hse : step s e with
    | none => simp [hse] at h
    | some m =>
      rw [hse] at h
      exact ih (fun e' he' => hstep e' (List.mem_cons_of_mem _ he')) m s'
        (hstep e (List.mem_cons_self _ _) s m hs hse) h

/-- Running a concatenation is running the parts one after the other. -/
theorem runTrace_append {σ ε : Type} (step : σ → ε → Option σ) (xs ys : List ε) (s : σ) :
    runTrace step s (xs ++ ys) = (runTrace step s xs).bind (fun m => runTrace step m ys) := by
  induction xs generalizing s with
  | nil => simp [runTrace]
  | cons e es ih =>
    simp only [List.cons_append, runTrace]
    cases step s e with
    | none => simp
    | some m => simpa using ih m

/-- A sum over the threads after the summand of one thread has changed. -/
theorem sum_range_update (n : Nat) (f g : Nat → Nat) (t : Nat) (ht : t < n)
    (hfg : ∀ u, u ≠ t → g u = f u) :
    (∑ u in Finset.range n, g u) + f t = (∑ u in Finset.range n, f u) + g t := by
  have hmem : t ∈ Finset.range n := Finset.mem_range.2 ht
  have hrest : ∑ u in (Finset.range n).erase t, g u = ∑ u in (Finset.range n).erase t, f u :=
    Finset.sum_congr rfl (fun u hu => hfg u (Finset.ne_of_mem_erase hu))
  rw [← Finset.add_sum_erase _ g hmem, ← Finset.add_sum_erase _ f hmem, hrest]
  omega

/-- A run through a list with a marked event passes through the states before
and after that event. -/
theorem runTrace_split {σ ε : Type} (step : σ → ε → Option σ) (xs ys : List ε) (e : ε)
    (s s' : σ) (h : runTrace step s (xs ++ e :: ys) = some s') :
    ∃ a b, runTrace step s xs = some a ∧ step a e = some b ∧ runTrace step b ys = some s' := by
  rw [runTrace_append] at h
  cases h1 : runTrace step s xs with
  | none => simp [h1] at h
  | some a =>
    simp only [h1, Option.some_bind, runTrace] at h
    cases h2 : step a e with
    | none => simp [h2] at h
    | some b =>
      simp only [h2, Option.some_bind] at h
      exact ⟨a, b, rfl, h2, h⟩

/-- Each queue step keeps `taken ++ buffer_ = put`. -/
theorem QueueRun.step_fifo {T : Type} (s s' : QueueRun T) (op : QueueOp T)
    (hs : s.taken ++ s.queue.buffer_ = s.put) (h : s.step op = some s') :
    s'.taken ++ s'.queue.buffer_ = s'.put := by
  cases op with
  | Put thread value =>
    simp only [QueueRun.step, Option.some.injEq] at h
    subst h
    simp [BlockingQueue.Put, ← hs]
  | Take thread =>
    simp only [QueueRun.step, BlockingQueue.Take, BlockingQueue.TakeLocked] at h
    cases hb : s.queue.buffer_ with
    | nil => simp [hb] at h
    | cons x rest =>
      simp only [hb, List.isEmpty_cons, Bool.false_eq_true, ↓reduceIte,
        Option.some.injEq] at h
      subst h
      simp [← hs, hb]

/-- C1: for every finite sequence of atomic `Put`/`Take` steps run from a fresh
queue, the values taken so far followed by the current buffer are exactly the
values put so far, in `Put` order; hence taken values plus buffer equal the
values put as multisets, and the values are taken in `Put` order. -/
theorem BlockingQueue_fifo_no_loss_no_duplication {T : Type} (ops : List (QueueOp T))
    (s : QueueRun T) (h : QueueRun.run QueueRun.init ops = some s) :
    s.taken ++ s.queue.buffer_ = s.put
      ∧ (↑s.taken + ↑s.queue.buffer_ : Multiset T) = ↑s.put
      ∧ s.taken <+: s.put := by
  have key : s.taken ++ s.queue.buffer_ = s.put :=
    runTrace_invariant QueueRun.step (fun r => r.taken ++ r.queue.buffer_ = r.put) ops
      (fun e _ a b ha hab => QueueRun.step_fifo a b e ha hab) QueueRun.init s rfl h
  refine ⟨key, ?_, ?_⟩
  · rw [← key]; rfl
  · exact ⟨s.queue.buffer_, key⟩

/-- Two producers and two consumers: 10, 20, 30 are put, 10 and 20 are taken. -/
theorem BlockingQueue_fifo_no_loss_no_duplication_witness :
    QueueRun.run QueueRun.init
        [.Put 0 10, .Put 1 20, .Take 2, .Put 0 30, .Take 3]
      = some ⟨⟨[30]⟩, [10, 20, 30], [10, 20]⟩
    ∧ ([10, 20] ++ [30] = [10, 20, 30]
      ∧ (↑[10, 20] + ↑[30] : Multiset Nat) = ↑[10, 20, 30]
      ∧ [10, 20] <+: [10, 20, 30]) :=
  ⟨by decide, BlockingQueue_fifo_no_loss_no_duplication
    [.Put 0 10, .Put 1 20, .Take 2, .Put 0 30, .Take 3]
    ⟨⟨[30]⟩, [10, 20, 30], [10, 20]⟩ (by decide)⟩


/-- C2, the code at the failing input: `class BlockingQueue` declares `Take`,
`Put` and `TakeLocked` and no member named `TryTake`, so the call that
`ChannelStorage::TryTakeUpline` and `TryTakeDownline` make names no member,
while `Take` and `Put` are found. -/
theorem BlockingQueue_has_no_TryTake :
    detail.ChannelStorage.TryTakeCallee = none
      ∧ BlockingQueue.lookup "Take" = some .Take
      ∧ BlockingQueue.lookup "Put" = some .Put := by
  decide

/-- C3: for the storage and the endpoints `(A, B)` that one `MakeChannel()`
returns and every value `x`, `A.SendData(x)` on the fresh channel followed by
`B.BlockingRead()` returns `x`, and symmetrically; `BlockingRead()` of an
endpoint takes from its `readQueue`; and in every channel state `SendData(x)`
by either endpoint appends `x` to the queue the other endpoint reads from and
leaves the sender's own read queue as it was, so that on the fresh channel the
sender's own read finds nothing. -/
theorem Channel_cross_wiring {T : Type} (x : T) (channel : detail.ChannelStorage T)
    (A B : ChannelEndpoint) (h : MakeChannel T = (channel, A, B)) :
    B.BlockingRead (A.SendData x channel) = some (x, channel)
      ∧ A.BlockingRead (B.SendData x channel) = some (x, channel)
      ∧ A.BlockingRead (A.SendData x channel) = none
      ∧ B.BlockingRead (B.SendData x channel) = none
      ∧ (∀ c : detail.ChannelStorage T,
          (A.BlockingRead c).map Prod.fst = ((A.readQueue c).Take).map Prod.fst
          ∧ (B.BlockingRead c).map Prod.fst = ((B.readQueue c).Take).map Prod.fst)
      ∧ (∀ c : detail.ChannelStorage T,
          B.readQueue (A.SendData x c) = (B.readQueue c).Put x
          ∧ A.readQueue (A.SendData x c) = A.readQueue c
          ∧ A.readQueue (B.SendData x c) = (A.readQueue c).Put x
          ∧ B.readQueue (B.SendData x c) = B.readQueue c) := by
  simp only [MakeChannel, Prod.mk.injEq] at h
  obtain ⟨rfl, rfl, rfl⟩ := h
  refine ⟨rfl, rfl, rfl, rfl, ?_, ?_⟩
  · intro c
    constructor
    · simp only [ChannelEndpoint.BlockingRead, ChannelEndpoint.readQueue,
        detail.ChannelStorage.TakeDownline]
      cases c.downline_.Take <;> rfl
    · simp only [ChannelEndpoint.BlockingRead, ChannelEndpoint.readQueue,
        detail.ChannelStorage.TakeUpline]
      cases c.upline_.Take <;> rfl
  · intro c
    exact ⟨rfl, rfl, rfl, rfl⟩

/-- The channel of `MakeChannel<Nat>()` and the value 42: what `A` sends `B`
reads, and `A` itself reads nothing. -/
theorem Channel_cross_wiring_witness :
    MakeChannel Nat = (detail.ChannelStorage.empty, ⟨.UPLINE⟩, ⟨.DOWNLINE⟩)
      ∧ ChannelEndpoint.BlockingRead ⟨.DOWNLINE⟩
          (ChannelEndpoint.SendData ⟨.UPLINE⟩ 42 detail.ChannelStorage.empty)
        = some (42, detail.ChannelStorage.empty)
      ∧ ChannelEndpoint.BlockingRead ⟨.UPLINE⟩
          (ChannelEndpoint.SendData ⟨.UPLINE⟩ 42 detail.ChannelStorage.empty)
        = (none : Option (Nat × detail.ChannelStorage Nat)) :=
  ⟨rfl,
    (Channel_cross_wiring 42 detail.ChannelStorage.empty ⟨.UPLINE⟩ ⟨.DOWNLINE⟩ rfl).1,
    (Channel_cross_wiring 42 detail.ChannelStorage.empty ⟨.UPLINE⟩ ⟨.DOWNLINE⟩ rfl).2.2.1⟩

namespace mutexes

/-- Every enabled step of the test-and-set lock keeps the invariant. -/
theorem tas.System.tas_step_inv (s s' : tas.System) (e : Event) (hs : s.Inv)
    (h : s.step e = some s') : s'.Inv := by
  obtain ⟨hflag, huniq⟩ := hs
  show (∀ t, s'.pc t = .holding → s'.lock.locked_ = true)
    ∧ ∀ a b, s'.pc a = .holding → s'.pc b = .holding → a = b
  cases e with
  | lockOp t =>
    have hnot : s.pc t ≠ .holding := by
      intro hc
      simp [tas.System.step, hc] at h
    have h' : s' = ⟨s.lock.LockAttempt.2,
        Function.update s.pc t (if s.lock.LockAttempt.1 then .holding else .spinning)⟩ := by
      simp only [tas.System.step] at h
      cases hp : s.pc t <;> simp_all
    subst h'
    refine ⟨fun _ _ => rfl, ?_⟩
    cases hl : s.lock.locked_ with
    | true =>
      intro a b ha hb
      simp only [tas.SpinLock.LockAttempt, tas.SpinLock.exchange, hl, Bool.not_true,
        Bool.false_eq_true, ↓reduceIte, Function.update_apply] at ha hb
      split at ha
      · exact absurd ha (by decide)
      · split at hb
        · exact absurd hb (by decide)
        · exact huniq a b ha hb
    | false =>
      have none_holds : ∀ u, s.pc u ≠ .holding := fun u hu => by
        have := hflag u hu
        simp [hl] at this
      intro a b ha hb
      simp only [Function.update_apply] at ha hb
      split at ha
      · split at hb
        · simp_all
        · exact absurd hb (none_holds b)
      · exact absurd ha (none_holds a)
  | unlock t =>
    have ht : s.pc t = .holding := by
      simp only [tas.System.step] at h
      cases hp : s.pc t <;> simp_all
    simp only [tas.System.step, ht, Option.some.injEq] at h
    subst h
    have other : ∀ u, Function.update s.pc t tas.Pc.outside u = .holding → False := by
      intro u hu
      simp only [Function.update_apply] at hu
      split at hu
      · exact absurd hu (by decide)
      · rename_i hne
        exact hne (huniq u t hu ht)
    exact ⟨fun u hu => (other u hu).elim, fun a _ ha _ => (other a ha).elim⟩

/-- The initial state of the test-and-set lock satisfies the invariant. -/
theorem tas.System.tas_init_inv : tas.System.init.Inv :=
  ⟨fun t ht => by simp [tas.System.init] at ht, fun a _ ha _ => by simp [tas.System.init] at ha⟩

/-- Every reachable state of the test-and-set lock satisfies the invariant. -/
theorem tas.System.tas_run_inv (ops : List Event) (s : tas.System)
    (h : tas.System.run tas.System.init ops = some s) : s.Inv :=
  runTrace_invariant tas.System.step tas.System.Inv ops
    (fun e _ a b ha hab => tas.System.tas_step_inv a b e ha hab) tas.System.init s
    tas.System.tas_init_inv h

end mutexes

namespace mutexes

namespace tickets

/-- Two tickets drawn fewer than `2 ^ w` draws apart differ. -/
theorem ticket_ne (m base i : Nat) (hpos : 0 < i) (hlt : i < m) :
    (base + i) % m ≠ base % m := by
  intro h
  have h1 : Nat.ModEq m (base + i) (base + 0) := by simpa [Nat.ModEq] using h
  have h2 : Nat.ModEq m i 0 := Nat.ModEq.add_left_cancel' base h1
  have h3 : m ∣ i := (Nat.modEq_zero_iff_dvd).1 h2
  have := Nat.le_of_dvd hpos h3
  omega

/-- A list of distinct thread numbers below `n` has at most `n` entries. -/
theorem length_le_of_nodup_lt (l : List Nat) (n : Nat) (hnd : l.Nodup)
    (hlt : ∀ t ∈ l, t < n) : l.length ≤ n := by
  have hsub : l ⊆ List.range n := fun t ht => List.mem_range.2 (hlt t ht)
  have := (List.subperm_of_subset hnd hsub).length_le
  simpa using this

/-- Changing a thread outside the list does not change `Waiting`. -/
theorem Waiting_update (w : Nat) (pc : Nat → Pc) (t : Nat) (v : Pc) :
    ∀ (ts : List Nat) (base : Nat), t ∉ ts →
      (System.Waiting w (Function.update pc t v) base ts ↔ System.Waiting w pc base ts) := by
  intro ts
  induction ts with
  | nil => intro base _; simp [System.Waiting]
  | cons a as ih =>
    intro base hmem
    have ha : a ≠ t := fun h => hmem (h ▸ List.mem_cons_self _ _)
    have has : t ∉ as := fun h => hmem (List.mem_cons_of_mem _ h)
    simp only [System.Waiting, Function.update_noteq ha, ih (base + 1) has]

/-- Waiting of a list extended at its end. -/
theorem Waiting_append (w : Nat) (pc : Nat → Pc) (t : Nat) :
    ∀ (ts : List Nat) (base : Nat),
      (System.Waiting w pc base (ts ++ [t]) ↔
        System.Waiting w pc base ts ∧ pc t = .waiting ((base + ts.length) % 2 ^ w)) := by
  intro ts
  induction ts with
  | nil => intro base; simp [System.Waiting]
  | cons a as ih =>
    intro base
    have e : (a :: as) ++ [t] = a :: (as ++ [t]) := rfl
    have hlen : base + 1 + as.length = base + (as.length + 1) := by omega
    rw [e]
    simp only [System.Waiting, List.length_cons]
    rw [ih (base + 1), hlen]
    tauto

/-- A thread of a waiting list waits with the ticket of its position. -/
theorem Waiting_mem (w : Nat) (pc : Nat → Pc) (t : Nat) :
    ∀ (ts : List Nat) (base : Nat), System.Waiting w pc base ts → t ∈ ts →
      ∃ i, i < ts.length ∧ pc t = .waiting ((base + i) % 2 ^ w) := by
  intro ts
  induction ts with
  | nil => intro base _ hmem; simp at hmem
  | cons a as ih =>
    intro base hw hmem
    simp only [System.Waiting] at hw
    rcases List.mem_cons.1 hmem with rfl | hin
    · exact ⟨0, by simp, by simpa using hw.1⟩
    · obtain ⟨i, hi, hpc⟩ := ih (base + 1) hw.2 hin
      refine ⟨i + 1, by simpa using hi, ?_⟩
      have : base + (i + 1) = base + 1 + i := by omega
      rw [this]
      exact hpc

/-- The entry at which the rest of a list starts ends the next longer initial segment. -/
theorem take_succ_of_drop {α : Type} (l : List α) (k : Nat) (t : α) (ts : List α)
    (h : l.drop k = t :: ts) : l.take (k + 1) = l.take k ++ [t] := by
  have hk : l[k]? = some t := by
    have := List.head?_drop l k
    rw [h] at this
    simpa using this.symm
  rw [List.take_succ, hk]
  rfl

/-- Dropping one more entry drops the head of the rest. -/
theorem drop_succ_of_drop {α : Type} (l : List α) (k : Nat) (t : α) (ts : List α)
    (h : l.drop k = t :: ts) : l.drop (k + 1) = ts := by
  have := List.tail_drop l k
  rw [h] at this
  simpa using this.symm

/-- The number of threads in flight. -/
theorem System.Inv.length_inFlight {w n : Nat} {s : System} (hs : System.Inv w n s) :
    s.inFlight.length + s.unlocks = s.drew.length ∧ s.inFlight.length ≤ n := by
  refine ⟨?_, length_le_of_nodup_lt _ n hs.nodup hs.lt_n⟩
  have := hs.unlocks_le
  simp only [System.inFlight, List.length_drop]
  omega

/-- Drawing a ticket keeps the invariant. -/
theorem System.Inv.draw {w n : Nat} {s s' : System} (hs : System.Inv w n s) (t : Nat)
    (htn : t < n) (hp : s.pc t = .outside)
    (hlock : s'.lock = (s.lock.fetch_add_next w).2)
    (hpc : s'.pc = Function.update s.pc t (.waiting (s.lock.fetch_add_next w).1))
    (hdrew : s'.drew = s.drew ++ [t]) (hgr : s'.granted = s.granted)
    (hun : s'.unlocks = s.unlocks) :
    System.Inv w n s' := by
  obtain ⟨hlen, -⟩ := hs.length_inFlight
  have hnotin : t ∉ s.inFlight := fun hin => (hs.mem_iff t).1 hin hp
  have hfl : s'.inFlight = s.inFlight ++ [t] := by
    simp only [System.inFlight, hdrew, hun]
    exact List.drop_append_of_le_length hs.unlocks_le
  have hticket : (s.lock.fetch_add_next w).1 = (s.unlocks + s.inFlight.length) % 2 ^ w := by
    simp only [SpinLock.fetch_add_next, hs.next_eq]
    congr 1
    omega
  have hserved := hs.served
  have hgranted := hs.granted_eq
  refine ⟨?_, ?_, ?_, ?_, ?_, ?_, ?_, ?_⟩
  · rw [hdrew, hun]
    simp only [List.length_append, List.length_singleton]
    exact Nat.le_succ_of_le hs.unlocks_le
  · rw [hlock, hun]
    exact hs.owner_eq
  · rw [hlock, hdrew]
    simp only [SpinLock.fetch_add_next, hs.next_eq, List.length_append, List.length_singleton,
      Nat.add_mod, Nat.mod_mod]
  · rw [hfl]
    exact List.nodup_append.2 ⟨hs.nodup, List.nodup_singleton t,
      fun a ha hb => hnotin ((List.mem_singleton.1 hb) ▸ ha)⟩
  · intro u
    rw [hfl, hpc]
    simp only [List.mem_append, List.mem_singleton]
    by_cases hu : u = t
    · subst hu
      simp
    · simp only [hu, or_false, Function.update_noteq hu]
      exact hs.mem_iff u
  · intro u hu
    rw [hfl] at hu
    simp only [List.mem_append, List.mem_singleton] at hu
    rcases hu with hu | rfl
    · exact hs.lt_n u hu
    · exact htn
  · rw [hfl, hpc, hun]
    cases hq : s.inFlight with
    | nil =>
      rw [hq] at hticket
      simp only [List.nil_append, System.Served, System.Waiting, Function.update_same,
        and_true, hticket, List.length_nil, Nat.add_zero]
      exact Or.inl trivial
    | cons a as =>
      rw [hq] at hserved hnotin hticket
      have hat : a ≠ t := fun h => hnotin (h ▸ List.mem_cons_self _ _)
      have hast : t ∉ as := fun h => hnotin (List.mem_cons_of_mem _ h)
      have e : (a :: as) ++ [t] = a :: (as ++ [t]) := rfl
      rw [e]
      simp only [System.Served] at hserved ⊢
      refine ⟨by simpa only [Function.update_noteq hat] using hserved.1, ?_⟩
      rw [Waiting_append]
      refine ⟨(Waiting_update w s.pc t _ as _ hast).2 hserved.2, ?_⟩
      simp only [Function.update_same, hticket, List.length_cons]
      congr 2
      omega
  · rw [hfl, hpc, hun, hgr, hdrew]
    cases hq : s.inFlight with
    | nil =>
      rw [hq] at hgranted
      simp only [System.headHolds, Bool.false_eq_true, ↓reduceIte, Nat.add_zero] at hgranted
      simp only [List.nil_append, System.headHolds, Function.update_same, Pc.isHolding,
        Bool.false_eq_true, ↓reduceIte, Nat.add_zero]
      rw [List.take_append_of_le_length hs.unlocks_le]
      exact hgranted
    | cons a as =>
      rw [hq] at hgranted hnotin hlen
      have hat : a ≠ t := fun h => hnotin (h ▸ List.mem_cons_self _ _)
      have e : (a :: as) ++ [t] = a :: (as ++ [t]) := rfl
      rw [e]
      simp only [System.headHolds, Function.update_noteq hat] at hgranted ⊢
      rw [List.take_append_of_le_length]
      · exact hgranted
      · simp only [List.length_cons] at hlen
        split <;> omega

/-- A thread that has returned from `Lock()` is the first in flight and its
ticket is the owner ticket. -/
theorem System.Inv.head_of_holding {w n : Nat} {s : System} (hs : System.Inv w n s)
    (t k : Nat) (hp : s.pc t = .holding k) :
    k = s.unlocks % 2 ^ w ∧ ∃ ts, s.inFlight = t :: ts := by
  have hin : t ∈ s.inFlight := (hs.mem_iff t).2 (by simp [hp])
  have hserved := hs.served
  cases hq : s.inFlight with
  | nil => simp [hq] at hin
  | cons a as =>
    rw [hq] at hin hserved
    simp only [System.Served] at hserved
    rcases List.mem_cons.1 hin with rfl | hmem
    · refine ⟨?_, as, rfl⟩
      rcases hserved.1 with h1 | h1
      · simp [hp] at h1
      · simpa [hp] using h1
    · obtain ⟨i, -, hi⟩ := Waiting_mem w s.pc t as _ hserved.2 hmem
      simp [hp] at hi

/-- A waiting thread whose ticket is the owner ticket is the first in flight. -/
theorem System.Inv.head_of_owner {w n : Nat} (hn : n < 2 ^ w) {s : System}
    (hs : System.Inv w n s) (t : Nat) (hp : s.pc t = .waiting (s.unlocks % 2 ^ w)) :
    ∃ ts, s.inFlight = t :: ts := by
  obtain ⟨-, hbound⟩ := hs.length_inFlight
  have hin : t ∈ s.inFlight := (hs.mem_iff t).2 (by simp [hp])
  have hserved := hs.served
  cases hq : s.inFlight with
  | nil => simp [hq] at hin
  | cons a as =>
    rw [hq] at hin hserved hbound
    simp only [System.Served] at hserved
    rcases List.mem_cons.1 hin with rfl | hmem
    · exact ⟨as, rfl⟩
    · obtain ⟨i, hlt, hi⟩ := Waiting_mem w s.pc t as _ hserved.2 hmem
      rw [hp] at hi
      simp only [Pc.waiting.injEq] at hi
      simp only [List.length_cons] at hbound
      have hne := ticket_ne (2 ^ w) s.unlocks (1 + i) (by omega) (by omega)
      have e : s.unlocks + 1 + i = s.unlocks + (1 + i) := by omega
      rw [e] at hi
      exact absurd hi.symm hne

/-- A successful evaluation of the loop condition keeps the invariant. -/
theorem System.Inv.grant {w n : Nat} (hn : n < 2 ^ w) {s s' : System}
    (hs : System.Inv w n s) (t k : Nat) (hp : s.pc t = .waiting k)
    (hk : s.lock.mustWait k = false)
    (hlock : s'.lock = s.lock)
    (hpc : s'.pc = Function.update s.pc t (.holding k))
    (hdrew : s'.drew = s.drew) (hgr : s'.granted = s.granted ++ [t])
    (hun : s'.unlocks = s.unlocks) :
    System.Inv w n s' := by
  have hko : k = s.unlocks % 2 ^ w := by
    simpa [SpinLock.mustWait, SpinLock.load_owner, hs.owner_eq] using hk
  subst hko
  obtain ⟨ts, hq⟩ := hs.head_of_owner hn t hp
  have hfl : s'.inFlight = s.inFlight := by simp only [System.inFlight, hdrew, hun]
  have hnd := hs.nodup
  have hserved := hs.served
  have hgranted := hs.granted_eq
  rw [hq] at hnd hserved hgranted
  have hts : t ∉ ts := (List.nodup_cons.1 hnd).1
  refine ⟨?_, ?_, ?_, ?_, ?_, ?_, ?_, ?_⟩
  · rw [hdrew, hun]; exact hs.unlocks_le
  · rw [hlock, hun]; exact hs.owner_eq
  · rw [hlock, hdrew]; exact hs.next_eq
  · rw [hfl]; exact hs.nodup
  · intro u
    rw [hfl, hpc]
    by_cases hu : u = t
    · subst hu
      simp [hq]
    · rw [Function.update_noteq hu]
      exact hs.mem_iff u
  · rw [hfl]; exact hs.lt_n
  · rw [hfl, hpc, hun, hq]
    simp only [System.Served, Function.update_same, or_true, true_and] at hserved ⊢
    exact (Waiting_update w s.pc t _ ts _ hts).2 hserved.2
  · rw [hfl, hpc, hun, hgr, hdrew, hq]
    simp only [System.headHolds, hp, Pc.isHolding, Bool.false_eq_true, ↓reduceIte,
      Nat.add_zero] at hgranted
    simp only [System.headHolds, Function.update_same, Pc.isHolding, ↓reduceIte]
    rw [take_succ_of_drop s.drew s.unlocks t ts hq, hgranted]

/-- An `Unlock()` by the holder keeps the invariant. -/
theorem System.Inv.unlock {w n : Nat} {s s' : System}
    (hs : System.Inv w n s) (t k : Nat) (hp : s.pc t = .holding k)
    (hlock : s'.lock = s.lock.Unlock w)
    (hpc : s'.pc = Function.update s.pc t .outside)
    (hdrew : s'.drew = s.drew) (hgr : s'.granted = s.granted)
    (hun : s'.unlocks = s.unlocks + 1) :
    System.Inv w n s' := by
  obtain ⟨hlen, -⟩ := hs.length_inFlight
  obtain ⟨hko, ts, hq⟩ := hs.head_of_holding t k hp
  have hfl : s'.inFlight = ts := by
    simp only [System.inFlight, hdrew, hun]
    exact drop_succ_of_drop s.drew s.unlocks t ts hq
  have hnd := hs.nodup
  have hserved := hs.served
  have hgranted := hs.granted_eq
  have hmem := hs.mem_iff
  have hltn := hs.lt_n
  rw [hq] at hnd hserved hgranted hlen hmem hltn
  have hts : t ∉ ts := (List.nodup_cons.1 hnd).1
  refine ⟨?_, ?_, ?_, ?_, ?_, ?_, ?_, ?_⟩
  · rw [hdrew, hun]
    simp only [List.length_cons] at hlen
    omega
  · rw [hlock, hun]
    simp only [SpinLock.Unlock, hs.owner_eq, Nat.add_mod, Nat.mod_mod]
  · rw [hlock, hdrew]; exact hs.next_eq
  · rw [hfl]; exact (List.nodup_cons.1 hnd).2
  · intro u
    rw [hfl, hpc]
    by_cases hu : u = t
    · subst hu
      simp [hts]
    · rw [Function.update_noteq hu, ← hmem u]
      simp [hu]
  · rw [hfl]
    exact fun u hu => hltn u (List.mem_cons_of_mem _ hu)
  · rw [hfl, hpc, hun]
    simp only [System.Served] at hserved
    cases ts with
    | nil => trivial
    | cons b bs =>
      have hbt : b ≠ t := fun h => hts (h ▸ List.mem_cons_self _ _)
      have hbs : t ∉ bs := fun h => hts (List.mem_cons_of_mem _ h)
      have hw := hserved.2
      simp only [System.Waiting] at hw
      simp only [System.Served, Function.update_noteq hbt]
      exact ⟨Or.inl hw.1, (Waiting_update w s.pc t _ bs _ hbs).2 hw.2⟩
  · rw [hfl, hpc, hun, hgr, hdrew]
    simp only [System.headHolds, hp, Pc.isHolding, ↓reduceIte] at hgranted
    rw [hgranted]
    simp only [System.Served] at hserved
    cases ts with
    | nil => simp [System.headHolds]
    | cons b bs =>
      have hbt : b ≠ t := fun h => hts (h ▸ List.mem_cons_self _ _)
      have hw := hserved.2
      simp only [System.Waiting] at hw
      simp [System.headHolds, Function.update_noteq hbt, hw.1, Pc.isHolding]

/-- Every enabled step of the ticket lock keeps the invariant. -/
theorem System.ticket_step_inv (w n : Nat) (hn : n < 2 ^ w) (s s' : System) (e : Event)
    (hs : System.Inv w n s) (h : System.step w n s e = some s') : System.Inv w n s' := by
  cases e with
  | lockOp t =>
    simp only [System.step] at h
    split at h
    · rename_i htn
      split at h
      · rename_i hp
        simp only [Option.some.injEq] at h
        subst h
        exact hs.draw t htn hp rfl rfl rfl rfl rfl
      · rename_i k hp
        split at h
        · simp only [Option.some.injEq] at h
          subst h
          exact hs
        · rename_i hk
          simp only [Option.some.injEq] at h
          subst h
          exact hs.grant hn t k hp (by simpa using hk) rfl rfl rfl rfl rfl
      · simp at h
    · simp at h
  | unlock t =>
    simp only [System.step] at h
    split at h
    · rename_i k hp
      simp only [Option.some.injEq] at h
      subst h
      exact hs.unlock t k hp rfl rfl rfl rfl rfl
    · simp at h

/-- The initial state of the ticket lock satisfies the invariant. -/
theorem System.ticket_init_inv (w n : Nat) : System.Inv w n System.init := by
  refine ⟨?_, ?_, ?_, ?_, ?_, ?_, ?_, ?_⟩ <;>
    simp [System.init, System.inFlight, SpinLock.new, System.Served, System.headHolds]

/-- Every reachable state of the ticket lock satisfies the invariant. -/
theorem System.ticket_run_inv (w n : Nat) (hn : n < 2 ^ w) (ops : List Event) (s : System)
    (h : System.run w n System.init ops = some s) : System.Inv w n s :=
  runTrace_invariant (System.step w n) (System.Inv w n) ops
    (fun e _ a b ha hab => System.ticket_step_inv w n hn a b e ha hab) System.init s
    (System.ticket_init_inv w n) h

end tickets

end mutexes

namespace mutexes

/-- While the ticket lock's owner thread is in flight the next free ticket
differs from the owner ticket. -/
theorem tickets.System.Inv.next_ne_owner {w n : Nat} (hn : n < 2 ^ w) {s : tickets.System}
    (hs : tickets.System.Inv w n s) (t : Nat) (ht : s.pc t ≠ .outside) :
    s.lock.next_free_ticket_ ≠ s.lock.owner_ticket_ := by
  obtain ⟨hlen, hbound⟩ := hs.length_inFlight
  have hin : t ∈ s.inFlight := (hs.mem_iff t).2 ht
  have hpos : 0 < s.inFlight.length := List.length_pos_of_mem hin
  rw [hs.next_eq, hs.owner_eq, ← hlen, Nat.add_comm]
  exact tickets.ticket_ne (2 ^ w) s.unlocks s.inFlight.length hpos (by omega)

/-- The state after `k` uncontended `Lock(); Unlock();` of thread `t`. -/
theorem tickets.run_cycles (w n t : Nat) (ht : t < n) :
    ∀ (k : Nat) (s : tickets.System), s.pc t = .outside →
      s.lock.next_free_ticket_ = s.lock.owner_ticket_ →
      s.lock.next_free_ticket_ < 2 ^ w →
      ∃ s', tickets.System.run w n s (tickets.cycles t k) = some s'
        ∧ s'.pc t = .outside
        ∧ s'.lock.next_free_ticket_ = (s.lock.next_free_ticket_ + k) % 2 ^ w
        ∧ s'.lock.owner_ticket_ = (s.lock.next_free_ticket_ + k) % 2 ^ w := by
  intro k
  induction k with
  | zero =>
    intro s hp heq hlt
    exact ⟨s, rfl, hp, by simp [Nat.mod_eq_of_lt hlt], by
      rw [← heq]; simp [Nat.mod_eq_of_lt hlt]⟩
  | succ k ih =>
    intro s hp heq hlt
    let s1 : tickets.System := { s with
      lock := ⟨(s.lock.next_free_ticket_ + 1) % 2 ^ w, (s.lock.owner_ticket_ + 1) % 2 ^ w⟩
      pc := Function.update (Function.update (Function.update s.pc t
        (.waiting s.lock.next_free_ticket_)) t (.holding s.lock.next_free_ticket_)) t .outside
      drew := s.drew ++ [t]
      granted := s.granted ++ [t]
      unlocks := s.unlocks + 1 }
    have hrun : tickets.System.run w n s (tickets.cycle t) = some s1 := by
      simp [tickets.System.run, tickets.cycle, runTrace, tickets.System.step, ht, hp,
        tickets.SpinLock.fetch_add_next, tickets.SpinLock.mustWait,
        tickets.SpinLock.load_owner, heq, tickets.SpinLock.Unlock, s1]
    have hp1 : s1.pc t = .outside := by simp [s1]
    have heq1 : s1.lock.next_free_ticket_ = s1.lock.owner_ticket_ := by simp [s1, heq]
    have hlt1 : s1.lock.next_free_ticket_ < 2 ^ w := Nat.mod_lt _ (by positivity)
    have hstep : tickets.System.run w n s (tickets.cycles t (k + 1))
        = tickets.System.run w n s1 (tickets.cycles t k) := by
      simp only [tickets.System.run, tickets.cycles, runTrace_append] at hrun ⊢
      rw [hrun]
      rfl
    have hn1 : s1.lock.next_free_ticket_ = (s.lock.next_free_ticket_ + 1) % 2 ^ w := rfl
    obtain ⟨s', h1, h2, h3, h4⟩ := ih s1 hp1 heq1 hlt1
    refine ⟨s', hstep.trans h1, h2, ?_, ?_⟩
    · rw [h3, hn1, Nat.mod_add_mod]; congr 1; omega
    · rw [h4, hn1, Nat.mod_add_mod]; congr 1; omega

end mutexes

namespace mutexes

/-- C5: in every execution of the ticket lock by fewer than `2 ^ w` threads (a
process has fewer threads than `std::size_t` has values), the sequence of
threads whose `Lock()` has returned is an initial segment of the sequence of
threads in the order of their `fetch_add` on `next_free_ticket_`: the `i`-th
thread to acquire the lock is the `i`-th thread that drew a ticket. -/
theorem ticket_lock_grants_in_draw_order (w n : Nat) (hn : n < 2 ^ w) (ops : List Event)
    (s : tickets.System) (h : tickets.System.run w n tickets.System.init ops = some s) :
    s.granted <+: s.drew ∧ ∀ i, i < s.granted.length → s.granted[i]? = s.drew[i]? := by
  have hs := tickets.System.ticket_run_inv w n hn ops s h
  refine ⟨?_, ?_⟩
  · rw [hs.granted_eq]
    exact List.take_prefix _ _
  · intro i hi
    rw [hs.granted_eq] at hi ⊢
    simp only [List.length_take] at hi
    rw [List.getElem?_take_of_lt (by omega)]

/-- Three threads on a 64-bit platform: thread 1 draws before thread 0, thread 2
last; the lock goes to thread 1, then to thread 0. -/
theorem ticket_lock_grants_in_draw_order_witness :
    ∃ s, tickets.System.run 64 3 tickets.System.init
        [.lockOp 1, .lockOp 0, .lockOp 0, .lockOp 1, .lockOp 2, .unlock 1, .lockOp 2, .lockOp 0]
        = some s
      ∧ s.drew = [1, 0, 2] ∧ s.granted = [1, 0]
      ∧ (s.granted <+: s.drew ∧ ∀ i, i < s.granted.length → s.granted[i]? = s.drew[i]?) :=
  ⟨_, rfl, rfl, rfl, ticket_lock_grants_in_draw_order 64 3 (by norm_num)
    [.lockOp 1, .lockOp 0, .lockOp 0, .lockOp 1, .lockOp 2, .unlock 1, .lockOp 2, .lockOp 0]
    _ rfl⟩

/-- C6 as stated fails on a 64-bit platform: after `2 ^ 64 - 1` uncontended
`Lock(); Unlock();` of one thread and one more `fetch_add`, `next_free_ticket_`
has wrapped to 0 while `owner_ticket_` is `2 ^ 64 - 1`. -/
theorem ticket_lock_owner_exceeds_next_after_wrap :
    ∃ s, tickets.System.run 64 1 tickets.System.init
        (tickets.cycles 0 (2 ^ 64 - 1) ++ [.lockOp 0]) = some s
      ∧ s.lock.next_free_ticket_ = 0
      ∧ s.lock.owner_ticket_ = 2 ^ 64 - 1
      ∧ ¬ s.lock.owner_ticket_ ≤ s.lock.next_free_ticket_ := by
  obtain ⟨s', h1, h2, h3, h4⟩ := tickets.run_cycles 64 1 0 (by norm_num) (2 ^ 64 - 1)
    tickets.System.init rfl rfl (by norm_num [tickets.System.init, tickets.SpinLock.new])
  have hnext : s'.lock.next_free_ticket_ = 2 ^ 64 - 1 := by
    rw [h3]; norm_num [tickets.System.init, tickets.SpinLock.new]
  have hown : s'.lock.owner_ticket_ = 2 ^ 64 - 1 := by
    rw [h4]; norm_num [tickets.System.init, tickets.SpinLock.new]
  refine ⟨{ s' with
      lock := (s'.lock.fetch_add_next 64).2
      pc := Function.update s'.pc 0 (.waiting (s'.lock.fetch_add_next 64).1)
      drew := s'.drew ++ [0] }, ?_, ?_, ?_, ?_⟩
  · simp only [tickets.System.run] at h1 ⊢
    rw [runTrace_append, h1]
    simp [runTrace, tickets.System.step, h2]
  · simp only [tickets.SpinLock.fetch_add_next, hnext]
    norm_num
  · simp only [tickets.SpinLock.fetch_add_next, hown]
  · simp only [tickets.SpinLock.fetch_add_next, hown, hnext]
    norm_num

/-- C6, amended: in every state the ticket lock reaches when run by fewer than
`2 ^ w` threads, `next_free_ticket_` is `owner_ticket_` plus the number of
threads in flight modulo `2 ^ w`, with at most `n` threads in flight; as long as
fewer than `2 ^ w` tickets have been drawn, `owner_ticket_ ≤ next_free_ticket_`;
a thread whose `Lock()` has returned drew the owner ticket; a thread that drew
the owner ticket holds the lock or its next evaluation of the loop condition
makes its `Lock()` return; and no two threads hold the owner ticket. -/
theorem ticket_lock_counters_modulo (w n : Nat) (hn : n < 2 ^ w) (ops : List Event)
    (s : tickets.System) (h : tickets.System.run w n tickets.System.init ops = some s) :
    s.lock.next_free_ticket_ = (s.lock.owner_ticket_ + s.inFlight.length) % 2 ^ w
      ∧ s.inFlight.length ≤ n
      ∧ (s.drew.length < 2 ^ w → s.lock.owner_ticket_ ≤ s.lock.next_free_ticket_)
      ∧ (∀ t, s.holds t = true → (s.pc t).ticket = some s.lock.owner_ticket_)
      ∧ (∀ t, (s.pc t).ticket = some s.lock.owner_ticket_ →
          s.holds t = true
            ∨ ∃ s', tickets.System.step w n s (.lockOp t) = some s' ∧ s'.holds t = true)
      ∧ (∀ t u, (s.pc t).ticket = some s.lock.owner_ticket_ →
          (s.pc u).ticket = some s.lock.owner_ticket_ → t = u) := by
  have hs := tickets.System.ticket_run_inv w n hn ops s h
  obtain ⟨hlen, hbound⟩ := hs.length_inFlight
  have hhead : ∀ t, (s.pc t).ticket = some s.lock.owner_ticket_ →
      ∃ ts, s.inFlight = t :: ts := by
    intro t ht
    cases hp : s.pc t with
    | outside => simp [hp, tickets.Pc.ticket] at ht
    | waiting k =>
      simp only [hp, tickets.Pc.ticket, Option.some.injEq] at ht
      subst ht
      rw [hs.owner_eq] at hp
      exact hs.head_of_owner hn t hp
    | holding k => exact (hs.head_of_holding t k hp).2
  refine ⟨?_, hbound, ?_, ?_, ?_, ?_⟩
  · rw [hs.next_eq, hs.owner_eq, Nat.mod_add_mod, ← hlen, Nat.add_comm]
  · intro hd
    have hu := hs.unlocks_le
    rw [hs.next_eq, hs.owner_eq, Nat.mod_eq_of_lt hd, Nat.mod_eq_of_lt (by omega)]
    exact hu
  · intro t ht
    cases hp : s.pc t with
    | outside => simp [tickets.System.holds, hp, tickets.Pc.isHolding] at ht
    | waiting k => simp [tickets.System.holds, hp, tickets.Pc.isHolding] at ht
    | holding k =>
      rw [(hs.head_of_holding t k hp).1, hs.owner_eq]
      rfl
  · intro t ht
    have htn : t < n := by
      obtain ⟨ts, hq⟩ := hhead t ht
      exact hs.lt_n t (by simp [hq])
    cases hp : s.pc t with
    | outside => simp [hp, tickets.Pc.ticket] at ht
    | waiting k =>
      right
      simp only [hp, tickets.Pc.ticket, Option.some.injEq] at ht
      subst ht
      refine ⟨{ s with
        pc := Function.update s.pc t (.holding s.lock.owner_ticket_)
        granted := s.granted ++ [t] }, ?_, ?_⟩
      · simp only [tickets.System.step, htn, ↓reduceIte, hp, tickets.SpinLock.mustWait,
          tickets.SpinLock.load_owner, bne_self_eq_false, Bool.false_eq_true]
      · simp [tickets.System.holds, tickets.Pc.isHolding]
    | holding k =>
      left
      simp [tickets.System.holds, hp, tickets.Pc.isHolding]
  · intro t u ht hu
    obtain ⟨ts, hq⟩ := hhead t ht
    obtain ⟨us, hq'⟩ := hhead u hu
    rw [hq] at hq'
    exact (List.cons.inj hq').1

/-- Two threads on a 64-bit platform: thread 1 holds ticket 0 and the lock,
thread 0 waits with ticket 1. -/
theorem ticket_lock_counters_modulo_witness :
    ∃ s, tickets.System.run 64 2 tickets.System.init [.lockOp 1, .lockOp 0, .lockOp 1] = some s
      ∧ s.lock = ⟨2, 0⟩ ∧ s.pc 1 = .holding 0 ∧ s.pc 0 = .waiting 1
      ∧ s.lock.next_free_ticket_ = (s.lock.owner_ticket_ + s.inFlight.length) % 2 ^ 64 :=
  ⟨_, rfl, rfl, rfl, rfl, (ticket_lock_counters_modulo 64 2 (by norm_num)
    [.lockOp 1, .lockOp 0, .lockOp 1] _ rfl).1⟩

end mutexes

namespace mutexes

/-- Every enabled step of the counter program keeps its invariant. -/
theorem Race.race_step_inv {σ : Type} {lstep : σ → Event → Option σ} {holds : σ → Nat → Bool}
    {I : σ → Prop} (L : LockLaws lstep holds I) (n K : Nat) (r r' : Race σ) (e : RaceEvent)
    (hr : Race.Inv holds I n K r) (h : Race.step lstep holds n K r e = some r') :
    Race.Inv holds I n K r' := by
  cases e with
  | lockOp t =>
    simp only [Race.step] at h
    split at h
    · rename_i hguard
      cases hl : lstep r.sys (.lockOp t) with
      | none => simp [hl] at h
      | some sys =>
        simp only [hl, Option.some.injEq] at h
        subst h
        have hpre := L.lock_pre r.sys sys t hl
        have hstart : r.body t = .start := by
          by_contra hne
          have := hr.in_body t hne
          simp [hpre] at this
        refine ⟨L.step_inv _ _ _ hr.sys_inv hl, ?_, hr.loaded_eq, ?_, hr.total⟩
        · intro u hu
          by_cases hut : u = t
          · subst hut; exact absurd hstart hu
          · have hframe := L.lock_frame r.sys sys t u hl hut
            have hold := hr.in_body u hu
            simpa only [hframe] using hold
        · intro u hu
          by_cases hut : u = t
          · subst hut; exact hguard
          · have hframe := L.lock_frame r.sys sys t u hl hut
            exact hr.holder u (by simpa only [hframe] using hu)
    · simp at h
  | read t =>
    simp only [Race.step] at h
    split at h
    · rename_i hguard
      simp only [Option.some.injEq] at h
      subst h
      refine ⟨hr.sys_inv, ?_, ?_, hr.holder, ?_⟩
      · intro u hu
        by_cases hut : u = t
        · subst hut; exact hguard.1
        · exact hr.in_body u (by simpa only [Function.update_noteq hut] using hu)
      · intro u v hu
        by_cases hut : u = t
        · subst hut
          simp only [Function.update_same, Body.loaded.injEq] at hu
          exact hu.symm
        · exact hr.loaded_eq u v (by simpa only [Function.update_noteq hut] using hu)
      · rw [hr.total]
        refine Finset.sum_congr rfl (fun u _ => ?_)
        by_cases hut : u = t
        · subst hut
          simp [Race.score, hguard.2, Body.credit]
        · simp [Race.score, Function.update_noteq hut]
    · simp at h
  | write t =>
    simp only [Race.step] at h
    split at h
    · rename_i value hb
      simp only [Option.some.injEq] at h
      subst h
      have hval : value = r.counter := hr.loaded_eq t value hb
      have hholds : holds r.sys t = true := hr.in_body t (by simp [hb])
      have htn := (hr.holder t hholds).1
      have hother : ∀ u, u ≠ t → r.body u = .start := by
        intro u hut
        by_contra hne
        exact hut (L.mutex r.sys u t hr.sys_inv (hr.in_body u hne) hholds)
      refine ⟨hr.sys_inv, ?_, ?_, hr.holder, ?_⟩
      · intro u hu
        by_cases hut : u = t
        · subst hut; exact hholds
        · exact hr.in_body u (by simpa only [Function.update_noteq hut] using hu)
      · intro u v hu
        by_cases hut : u = t
        · subst hut
          simp at hu
        · simp [Function.update_noteq hut, hother u hut] at hu
      · have hsum := sum_range_update n r.score
          (Race.score { r with counter := value + 1
                               body := Function.update r.body t .stored }) t htn
          (fun u hut => by simp [Race.score, Function.update_noteq hut])
        have h1 : r.score t = r.done t := by simp [Race.score, hb, Body.credit]
        have h2 : Race.score { r with counter := value + 1
                                      body := Function.update r.body t .stored } t
            = r.done t + 1 := by simp [Race.score, Body.credit]
        have h3 := hr.total
        show value + 1 = _
        omega
    · simp at h
  | unlock t =>
    simp only [Race.step] at h
    split at h
    · rename_i hb
      cases hl : lstep r.sys (.unlock t) with
      | none => simp [hl] at h
      | some sys =>
        simp only [hl, Option.some.injEq] at h
        subst h
        obtain ⟨hholds, hreleased⟩ := L.unlock_post r.sys sys t hl
        have hnone : ∀ u, u ≠ t → holds r.sys u = true → False := fun u hut hu =>
          hut (L.mutex r.sys u t hr.sys_inv hu hholds)
        have hother : ∀ u, u ≠ t → r.body u = .start := by
          intro u hut
          by_contra hne
          exact hnone u hut (hr.in_body u hne)
        refine ⟨L.step_inv _ _ _ hr.sys_inv hl, ?_, ?_, ?_, ?_⟩
        · intro u hu
          by_cases hut : u = t
          · subst hut; simp at hu
          · simp [Function.update_noteq hut, hother u hut] at hu
        · intro u v hu
          by_cases hut : u = t
          · subst hut; simp at hu
          · simp [Function.update_noteq hut, hother u hut] at hu
        · intro u hu
          by_cases hut : u = t
          · subst hut; simp [hreleased] at hu
          · have hframe := L.unlock_frame r.sys sys t u hl hut
            exact (hnone u hut (by simpa only [hframe] using hu)).elim
        · rw [hr.total]
          refine Finset.sum_congr rfl (fun u _ => ?_)
          by_cases hut : u = t
          · subst hut
            simp [Race.score, hb, Body.credit]
          · simp [Race.score, Function.update_noteq hut]
    · simp at h

/-- When every thread has finished its `K` iterations the counter is `n * K`. -/
theorem Race.counter_eq {σ : Type} {lstep : σ → Event → Option σ} {holds : σ → Nat → Bool}
    {I : σ → Prop} (L : LockLaws lstep holds I) (s0 : σ) (hI : I s0)
    (hfree : ∀ t, holds s0 t = false) (n K : Nat) (ops : List RaceEvent) (r : Race σ)
    (h : runTrace (Race.step lstep holds n K) (Race.init s0) ops = some r)
    (hdone : ∀ t, t < n → r.done t = K) : r.counter = n * K := by
  have hinit : Race.Inv holds I n K (Race.init s0) := by
    refine ⟨hI, ?_, ?_, ?_, ?_⟩
    · intro t ht; simp [Race.init] at ht
    · intro t v ht; simp [Race.init] at ht
    · intro t ht; simp [Race.init, hfree t] at ht
    · simp [Race.init, Race.score, Body.credit]
  have hr : Race.Inv holds I n K r :=
    runTrace_invariant (Race.step lstep holds n K) (Race.Inv holds I n K) ops
      (fun e _ a b ha hab => Race.race_step_inv L n K a b e ha hab) (Race.init s0) r hinit h
  have hscore : ∀ t ∈ Finset.range n, r.score t = K := by
    intro t ht
    have htn := Finset.mem_range.1 ht
    have hstart : r.body t = .start := by
      by_contra hne
      have := (hr.holder t (hr.in_body t hne)).2
      rw [hdone t htn] at this
      exact lt_irrefl _ this
    simp [Race.score, hstart, Body.credit, hdone t htn]
  rw [hr.total, Finset.sum_congr rfl hscore]
  simp

end mutexes

namespace mutexes

/-- A step of the test-and-set lock changes the place of its own thread only. -/
theorem tas.System.tas_step_pc_other (s s' : tas.System) (e : Event)
    (h : s.step e = some s') (u : Nat) (hu : u ≠ e.thread) : s'.pc u = s.pc u := by
  cases e with
  | lockOp t =>
    simp only [tas.System.step] at h
    split at h
    · simp at h
    · simp only [Option.some.injEq] at h
      subst h
      exact Function.update_noteq hu _ _
  | unlock t =>
    simp only [tas.System.step] at h
    split at h
    · simp only [Option.some.injEq] at h
      subst h
      exact Function.update_noteq hu _ _
    · simp at h

/-- A step of the ticket lock changes the place of its own thread only. -/
theorem tickets.System.ticket_step_pc_other (w n : Nat) (s s' : tickets.System) (e : Event)
    (h : tickets.System.step w n s e = some s') (u : Nat) (hu : u ≠ e.thread) :
    s'.pc u = s.pc u := by
  cases e with
  | lockOp t =>
    simp only [tickets.System.step] at h
    split at h
    · split at h
      · simp only [Option.some.injEq] at h
        subst h
        exact Function.update_noteq hu _ _
      · split at h
        · simp only [Option.some.injEq] at h
          subst h
          rfl
        · simp only [Option.some.injEq] at h
          subst h
          exact Function.update_noteq hu _ _
      · simp at h
    · simp at h
  | unlock t =>
    simp only [tickets.System.step] at h
    split at h
    · simp only [Option.some.injEq] at h
      subst h
      exact Function.update_noteq hu _ _
    · simp at h

/-- The test-and-set lock meets the requirements of the counter program. -/
theorem tas.tas_laws : LockLaws tas.System.step tas.System.holds tas.System.Inv where
  step_inv := fun s s' e hs h => tas.System.tas_step_inv s s' e hs h
  mutex := fun s a b hs ha hb =>
    hs.2 a b (by simpa [tas.System.holds] using ha) (by simpa [tas.System.holds] using hb)
  lock_pre := by
    intro s s' t h
    simp only [tas.System.step] at h
    split at h
    · simp at h
    · rename_i hne
      simp only [tas.System.holds, beq_eq_false_iff_ne]
      exact fun hc => hne hc
  lock_frame := by
    intro s s' t u h hu
    simp only [tas.System.holds, tas.System.tas_step_pc_other s s' _ h u hu]
  unlock_post := by
    intro s s' t h
    simp only [tas.System.step] at h
    split at h
    · rename_i hp
      simp only [Option.some.injEq] at h
      subst h
      simp [tas.System.holds, hp]
    · simp at h
  unlock_frame := by
    intro s s' t u h hu
    simp only [tas.System.holds, tas.System.tas_step_pc_other s s' _ h u hu]

/-- The ticket lock run by fewer than `2 ^ w` threads meets the requirements of
the counter program. -/
theorem tickets.ticket_laws (w n : Nat) (hn : n < 2 ^ w) :
    LockLaws (tickets.System.step w n) tickets.System.holds (tickets.System.Inv w n) where
  step_inv := fun s s' e hs h => tickets.System.ticket_step_inv w n hn s s' e hs h
  mutex := by
    intro s a b hs ha hb
    cases hpa : s.pc a with
    | outside => simp [tickets.System.holds, hpa, tickets.Pc.isHolding] at ha
    | waiting k => simp [tickets.System.holds, hpa, tickets.Pc.isHolding] at ha
    | holding k =>
      cases hpb : s.pc b with
      | outside => simp [tickets.System.holds, hpb, tickets.Pc.isHolding] at hb
      | waiting j => simp [tickets.System.holds, hpb, tickets.Pc.isHolding] at hb
      | holding j =>
        obtain ⟨-, ts, hq⟩ := hs.head_of_holding a k hpa
        obtain ⟨-, us, hq'⟩ := hs.head_of_holding b j hpb
        rw [hq] at hq'
        exact (List.cons.inj hq').1
  lock_pre := by
    intro s s' t h
    simp only [tickets.System.step] at h
    split at h
    · split at h
      · rename_i hp; simp [tickets.System.holds, hp, tickets.Pc.isHolding]
      · rename_i k hp; simp [tickets.System.holds, hp, tickets.Pc.isHolding]
      · simp at h
    · simp at h
  lock_frame := by
    intro s s' t u h hu
    simp only [tickets.System.holds, tickets.System.ticket_step_pc_other w n s s' _ h u hu]
  unlock_post := by
    intro s s' t h
    simp only [tickets.System.step] at h
    split at h
    · rename_i k hp
      simp only [Option.some.injEq] at h
      subst h
      simp [tickets.System.holds, hp, tickets.Pc.isHolding]
    · simp at h
  unlock_frame := by
    intro s s' t u h hu
    simp only [tickets.System.holds, tickets.System.ticket_step_pc_other w n s s' _ h u hu]

end mutexes

namespace mutexes

/-- C4: with every atomic operation one step and `Unlock()` performed only by
the holder, every reachable state of the test-and-set lock and of the ticket
lock (run by `n < 2 ^ w` threads, a process having fewer threads than
`std::size_t` has values) has at most one thread between a returned `Lock()`
and its `Unlock()`; and when `n` threads have each incremented a shared counter
`K` times under either lock, the counter is exactly `n * K`. -/
theorem spinlocks_mutual_exclusion (w n K : Nat) :
    (∀ ops s, tas.System.run tas.System.init ops = some s →
        ∀ a b, s.holds a = true → s.holds b = true → a = b)
      ∧ (n < 2 ^ w → ∀ ops s, tickets.System.run w n tickets.System.init ops = some s →
        ∀ a b, s.holds a = true → s.holds b = true → a = b)
      ∧ (∀ ops r, tas.race n K ops = some r → (∀ t, t < n → r.done t = K) →
        r.counter = n * K)
      ∧ (n < 2 ^ w → ∀ ops r, tickets.race w n K ops = some r →
        (∀ t, t < n → r.done t = K) → r.counter = n * K) := by
  refine ⟨?_, ?_, ?_, ?_⟩
  · intro ops s h a b ha hb
    exact tas.tas_laws.mutex s a b (tas.System.tas_run_inv ops s h) ha hb
  · intro hn ops s h a b ha hb
    exact (tickets.ticket_laws w n hn).mutex s a b
      (tickets.System.ticket_run_inv w n hn ops s h) ha hb
  · intro ops r h hdone
    exact Race.counter_eq tas.tas_laws tas.System.init tas.System.tas_init_inv
      (fun t => rfl) n K ops r h hdone
  · intro hn ops r h hdone
    exact Race.counter_eq (tickets.ticket_laws w n hn) tickets.System.init
      (tickets.System.ticket_init_inv w n) (fun t => rfl) n K ops r h hdone

/-- Two threads, one increment each, on a 64-bit platform, with contention on
both locks: the counter ends at 2. -/
theorem spinlocks_mutual_exclusion_witness :
    (∃ r, tas.race 2 1 [.lockOp 0, .lockOp 1, .read 0, .lockOp 1, .write 0, .unlock 0,
          .lockOp 1, .read 1, .write 1, .unlock 1] = some r
        ∧ (∀ t, t < 2 → r.done t = 1) ∧ r.counter = 2 * 1)
      ∧ (∃ r, tickets.race 64 2 1 [.lockOp 0, .lockOp 1, .lockOp 1, .lockOp 0, .read 0,
          .write 0, .unlock 0, .lockOp 1, .read 1, .write 1, .unlock 1] = some r
        ∧ (∀ t, t < 2 → r.done t = 1) ∧ r.counter = 2 * 1) := by
  have hdone : ∀ (f : Nat → Nat), f 0 = 1 → f 1 = 1 → ∀ t, t < 2 → f t = 1 := by
    intro f h0 h1 t ht
    interval_cases t
    · exact h0
    · exact h1
  refine ⟨⟨_, rfl, hdone _ rfl rfl, ?_⟩, ⟨_, rfl, hdone _ rfl rfl, ?_⟩⟩
  · exact (spinlocks_mutual_exclusion 64 2 1).2.2.1
      [.lockOp 0, .lockOp 1, .read 0, .lockOp 1, .write 0, .unlock 0,
        .lockOp 1, .read 1, .write 1, .unlock 1] _ rfl (hdone _ rfl rfl)
  · exact (spinlocks_mutual_exclusion 64 2 1).2.2.2 (by norm_num)
      [.lockOp 0, .lockOp 1, .lockOp 1, .lockOp 0, .read 0,
        .write 0, .unlock 0, .lockOp 1, .read 1, .write 1, .unlock 1] _ rfl (hdone _ rfl rfl)

end mutexes

namespace mutexes

/-- On a set flag `Lock()` of the test-and-set lock does not return, whatever the fuel. -/
theorem tas.SpinLock.Lock_locked (fuel : Nat) :
    ∀ l : tas.SpinLock, l.locked_ = true → l.Lock fuel = none := by
  induction fuel with
  | zero => intro l _; rfl
  | succ k ih =>
    intro l hl
    simp only [tas.SpinLock.Lock, tas.SpinLock.LockAttempt, tas.SpinLock.exchange, hl,
      Bool.not_true, Bool.false_eq_true, ↓reduceIte]
    exact ih ⟨true⟩ rfl

/-- While the loop condition of the ticket lock is true the loop is not left,
whatever the fuel. -/
theorem tickets.SpinLock.spin_mustWait (l : tickets.SpinLock) (k : Nat)
    (h : l.mustWait k = true) (fuel : Nat) : l.spin k fuel = false := by
  induction fuel with
  | zero => rfl
  | succ f ih => simp only [tickets.SpinLock.spin, h, ↓reduceIte, ih]

/-- With the flag set and no `Unlock()`, a spinning thread keeps spinning. -/
theorem tas.System.spinning_forever (t : Nat) (ops : List Event)
    (hops : ∀ e ∈ ops, e.isUnlock = false) (s s' : tas.System)
    (hs : s.pc t = .spinning ∧ s.lock.locked_ = true) (h : tas.System.run s ops = some s') :
    s'.pc t = .spinning ∧ s'.lock.locked_ = true := by
  refine runTrace_invariant tas.System.step
    (fun r => r.pc t = .spinning ∧ r.lock.locked_ = true) ops ?_ s s' hs h
  intro e he a b ha hab
  cases e with
  | unlock u => simpa [Event.isUnlock] using hops _ he
  | lockOp u =>
    simp only [tas.System.step] at hab
    split at hab
    · simp at hab
    · simp only [Option.some.injEq] at hab
      subst hab
      refine ⟨?_, rfl⟩
      simp only [tas.SpinLock.LockAttempt, tas.SpinLock.exchange, ha.2, Bool.not_true,
        Bool.false_eq_true, ↓reduceIte, Function.update_apply]
      split
      · rfl
      · exact ha.1

/-- With no `Unlock()`, a thread waiting with a ticket other than the owner
ticket keeps waiting. -/
theorem tickets.System.waiting_forever (w n t k o : Nat) (hko : k ≠ o) (ops : List Event)
    (hops : ∀ e ∈ ops, e.isUnlock = false) (s s' : tickets.System)
    (hs : s.pc t = .waiting k ∧ s.lock.owner_ticket_ = o)
    (h : tickets.System.run w n s ops = some s') :
    s'.pc t = .waiting k ∧ s'.lock.owner_ticket_ = o := by
  refine runTrace_invariant (tickets.System.step w n)
    (fun r => r.pc t = .waiting k ∧ r.lock.owner_ticket_ = o) ops ?_ s s' hs h
  intro e he a b ha hab
  cases e with
  | unlock u => simpa [Event.isUnlock] using hops _ he
  | lockOp u =>
    by_cases hut : t = u
    · subst hut
      simp only [tickets.System.step, ha.1, tickets.SpinLock.mustWait,
        tickets.SpinLock.load_owner, ha.2] at hab
      have hne : (k != o) = true := by simpa using hko
      simp only [hne, ↓reduceIte] at hab
      split at hab
      · simp only [Option.some.injEq] at hab
        subst hab
        exact ha
      · simp at hab
    · have hpc := tickets.System.ticket_step_pc_other w n a b _ hab t hut
      simp only [Event.thread] at hpc
      refine ⟨hpc ▸ ha.1, ?_⟩
      simp only [tickets.System.step] at hab
      split at hab
      · split at hab
        · simp only [Option.some.injEq] at hab
          subst hab
          exact ha.2
        · split at hab
          · simp only [Option.some.injEq] at hab
            subst hab
            exact ha.2
          · simp only [Option.some.injEq] at hab
            subst hab
            exact ha.2
        · simp at hab
      · simp at hab

/-- C9: for either spinlock, when the thread that holds the lock calls `Lock()`
again without `Unlock()` and no `Unlock()` is performed, the second `Lock()` has
not returned after any finite number of steps of any threads.  For the
test-and-set lock `exchange(true)` returns true and leaves the flag true; for
the ticket lock (fewer than `2 ^ w` threads) the second call draws a ticket
different from `owner_ticket_`, which stays as it is, so the loop condition
stays true. -/
theorem relock_never_returns (w n : Nat) :
    (∀ ops s t, tas.System.run tas.System.init ops = some s → s.holds t = true →
        (s.lock.exchange true).1 = true ∧ (s.lock.exchange true).2.locked_ = true
          ∧ (∀ fuel, s.lock.Lock fuel = none)
          ∧ ∃ s1, s.relock t = some s1 ∧ s1.pc t = .spinning
            ∧ ∀ ops' s2, (∀ e ∈ ops', e.isUnlock = false) →
                tas.System.run s1 ops' = some s2 →
                s2.pc t = .spinning ∧ s2.lock.locked_ = true)
      ∧ (n < 2 ^ w → ∀ ops s t, tickets.System.run w n tickets.System.init ops = some s →
        s.holds t = true →
        s.lock.next_free_ticket_ ≠ s.lock.owner_ticket_
          ∧ (∀ fuel, s.lock.Lock w fuel = none)
          ∧ ∃ s1, s.relock w t = some s1 ∧ s1.pc t = .waiting s.lock.next_free_ticket_
            ∧ ∀ ops' s2, (∀ e ∈ ops', e.isUnlock = false) →
                tickets.System.run w n s1 ops' = some s2 →
                s2.pc t = .waiting s.lock.next_free_ticket_
                  ∧ s2.lock.owner_ticket_ = s.lock.owner_ticket_
                  ∧ s2.lock.mustWait s.lock.next_free_ticket_ = true) := by
  constructor
  · intro ops s t h ht
    have hs := tas.System.tas_run_inv ops s h
    have hp : s.pc t = .holding := by simpa [tas.System.holds] using ht
    have hl : s.lock.locked_ = true := hs.1 t hp
    refine ⟨hl, rfl, fun fuel => tas.SpinLock.Lock_locked fuel s.lock hl, ?_⟩
    refine ⟨⟨s.lock.LockAttempt.2, Function.update s.pc t .spinning⟩, ?_, ?_, ?_⟩
    · simp [tas.System.relock, hp, tas.SpinLock.LockAttempt, tas.SpinLock.exchange, hl]
    · simp
    · intro ops' s2 hops h2
      exact tas.System.spinning_forever t ops' hops _ s2 ⟨by simp, rfl⟩ h2
  · intro hn ops s t h ht
    have hs := tickets.System.ticket_run_inv w n hn ops s h
    have hne : s.lock.next_free_ticket_ ≠ s.lock.owner_ticket_ := by
      refine hs.next_ne_owner hn t ?_
      intro hc
      simp [tickets.System.holds, hc, tickets.Pc.isHolding] at ht
    have hwait : (s.lock.fetch_add_next w).2.mustWait (s.lock.fetch_add_next w).1 = true := by
      simpa [tickets.SpinLock.mustWait, tickets.SpinLock.load_owner,
        tickets.SpinLock.fetch_add_next] using hne
    refine ⟨hne, ?_, ?_⟩
    · intro fuel
      simp only [tickets.SpinLock.Lock,
        tickets.SpinLock.spin_mustWait _ _ hwait fuel, Bool.false_eq_true, ↓reduceIte]
    · cases hp : s.pc t with
      | outside => simp [tickets.System.holds, hp, tickets.Pc.isHolding] at ht
      | waiting k => simp [tickets.System.holds, hp, tickets.Pc.isHolding] at ht
      | holding k =>
        refine ⟨{ s with
            lock := (s.lock.fetch_add_next w).2
            pc := Function.update s.pc t (.waiting (s.lock.fetch_add_next w).1)
            drew := s.drew ++ [t] }, ?_, ?_, ?_⟩
        · simp [tickets.System.relock, hp]
        · simp [tickets.SpinLock.fetch_add_next]
        · intro ops' s2 hops h2
          have := tickets.System.waiting_forever w n t s.lock.next_free_ticket_
            s.lock.owner_ticket_ hne ops' hops { s with
              lock := (s.lock.fetch_add_next w).2
              pc := Function.update s.pc t (.waiting (s.lock.fetch_add_next w).1)
              drew := s.drew ++ [t] } s2
            ⟨by simp [tickets.SpinLock.fetch_add_next], rfl⟩ h2
          refine ⟨this.1, this.2, ?_⟩
          simpa [tickets.SpinLock.mustWait, tickets.SpinLock.load_owner, this.2] using hne

/-- Two threads, 64-bit `std::size_t`.  Thread 0 acquires the test-and-set lock
and calls `Lock()` again: after further attempts of both threads it still spins
and the flag is set.  Thread 0 acquires the ticket lock with ticket 0 and calls
`Lock()` again, drawing ticket 1: after further polls of thread 0 and a draw and
a poll of thread 1 it still waits and `owner_ticket_` is still 0. -/
theorem relock_never_returns_witness :
    (∃ s s1 s2, tas.System.run tas.System.init [.lockOp 0] = some s
      ∧ s.holds 0 = true
      ∧ s.relock 0 = some s1
      ∧ tas.System.run s1 [.lockOp 0, .lockOp 1, .lockOp 0] = some s2
      ∧ s2.pc 0 = .spinning ∧ s2.lock.locked_ = true
      ∧ (s.lock.exchange true).1 = true)
    ∧ (∃ s s1 s2, tickets.System.run 64 2 tickets.System.init [.lockOp 0, .lockOp 0] = some s
      ∧ s.holds 0 = true
      ∧ s.relock 64 0 = some s1
      ∧ tickets.System.run 64 2 s1 [.lockOp 0, .lockOp 1, .lockOp 1, .lockOp 0] = some s2
      ∧ s2.pc 0 = .waiting 1 ∧ s2.lock.owner_ticket_ = 0
      ∧ s.lock.next_free_ticket_ ≠ s.lock.owner_ticket_) :=
  ⟨⟨_, _, _, rfl, rfl, rfl, rfl, rfl, rfl,
      ((relock_never_returns 64 2).1 [.lockOp 0] _ 0 rfl rfl).1⟩,
    ⟨_, _, _, rfl, rfl, rfl, rfl, rfl, rfl,
      ((relock_never_returns 64 2).2 (by norm_num) [.lockOp 0, .lockOp 0] _ 0 rfl rfl).1⟩⟩

end mutexes

/-- What a step of a worker does: holding a task it records it; at `Take()` with
an empty task at the head it leaves; at `Take()` with a task `id` at the head
it takes it and holds it. -/
theorem StaticThreadPool.WorkerRoutine_cases (p p' : StaticThreadPool) (i : Nat)
    (h : p.WorkerRoutine i = some p') :
    (∃ id, p.running i = some id ∧ p' = { p with
        record := p.record ++ [id]
        running := Function.update p.running i none })
      ∨ (∃ rest, p.running i = none ∧ p.tasks_.buffer_ = none :: rest ∧ p' = { p with
        tasks_ := ⟨rest⟩
        taken := p.taken ++ [none]
        exited := Function.update p.exited i true
        stops := Function.update p.stops i (p.stops i + 1) })
      ∨ (∃ id rest, p.running i = none ∧ p.tasks_.buffer_ = some id :: rest ∧ p' = { p with
        tasks_ := ⟨rest⟩
        taken := p.taken ++ [some id]
        running := Function.update p.running i (some id) }) := by
  simp only [StaticThreadPool.WorkerRoutine] at h
  cases hr : p.running i with
  | some id =>
    simp only [hr, Option.some.injEq] at h
    exact Or.inl ⟨id, rfl, h.symm⟩
  | none =>
    simp only [hr, BlockingQueue.Take, BlockingQueue.TakeLocked] at h
    cases hb : p.tasks_.buffer_ with
    | nil => simp [hb] at h
    | cons x rest =>
      cases x with
      | none =>
        simp only [hb, List.isEmpty_cons, Bool.false_eq_true, ↓reduceIte,
          Option.some.injEq] at h
        exact Or.inr (Or.inl ⟨rest, rfl, rfl, h.symm⟩)
      | some id =>
        simp only [hb, List.isEmpty_cons, Bool.false_eq_true, ↓reduceIte,
          Option.some.injEq] at h
        exact Or.inr (Or.inr ⟨id, rest, rfl, rfl, h.symm⟩)

/-- The number of workers that hold a given task after one worker has changed
the task it holds. -/
theorem sum_holding_update (n : Nat) (running : Nat → Option Nat) (i : Nat) (hi : i < n)
    (v : Option Nat) (id : Nat) :
    (∑ u in Finset.range n, (if Function.update running i v u = some id then 1 else 0))
        + (if running i = some id then 1 else 0)
      = (∑ u in Finset.range n, (if running u = some id then 1 else 0))
        + (if v = some id then 1 else 0) := by
  have h := sum_range_update n (fun u => if running u = some id then 1 else 0)
    (fun u => if Function.update running i v u = some id then 1 else 0) i hi
    (fun u hu => by simp only [Function.update_noteq hu])
  simpa using h

/-- A worker step keeps the invariant of a single `Join()`, and changes neither
the place of the thread inside `Join()` nor the outcomes. -/
theorem StaticThreadPool.SingleJoin.work {p p' : StaticThreadPool} (hp : p.SingleJoin)
    (i : Nat) (h : p.step (.work i) = some p') :
    p'.SingleJoin ∧ p'.caller = p.caller ∧ p'.outcomes = p.outcomes := by
  simp only [StaticThreadPool.step] at h
  split at h
  · rename_i hguard
    obtain ⟨tasks, k, hbuf, hsum, hpill, ids, hsub, hacct⟩ := hp.queue
    have hctrl := hp.ctrl
    rcases StaticThreadPool.WorkerRoutine_cases p p' i h with
      ⟨id, hrun, rfl⟩ | ⟨rest, hrun, hb, rfl⟩ | ⟨id, rest, hrun, hb, rfl⟩
    · refine ⟨⟨⟨tasks, k, hbuf, hsum, hpill, ids, hsub, ?_⟩, hp.put_eq, hp.stops_eq, ?_,
        hp.joinable_all, hctrl⟩, rfl, rfl⟩
      · intro id'
        have hupd := sum_holding_update p.workers_ p.running i hguard.1 none id'
        have hold := hacct id'
        show (p.record ++ [id]).count id'
          + ∑ u in Finset.range p.workers_,
              (if Function.update p.running i none u = some id' then 1 else 0)
          + tasks.count id' = ids.count id'
        rw [List.count_append, List.count_singleton]
        by_cases hid : id = id'
        · subst hid
          simp only [hrun, ↓reduceIte, reduceCtorEq, beq_self_eq_true] at hupd ⊢
          omega
        · have hne : (id == id') = false := by simpa using hid
          have hne' : ¬ (some id = some id') := by simpa using hid
          simp only [hrun, hne', ↓reduceIte, reduceCtorEq] at hupd
          simp only [hne, Bool.false_eq_true, ↓reduceIte]
          omega
      · intro u hu
        show Function.update p.running i none u = none
        by_cases hui : u = i
        · subst hui; simp
        · rw [Function.update_noteq hui]; exact hp.idle u hu
    · refine ⟨⟨?_, hp.put_eq, ?_, ?_, hp.joinable_all, ?_⟩, rfl, rfl⟩
      · cases tasks with
        | cons a ts => simp [hb] at hbuf
        | nil =>
          cases k with
          | zero => simp [hb] at hbuf
          | succ k =>
            have hrest : rest = List.replicate k none := by
              simpa [hb, List.replicate_succ] using hbuf
            have hstop : p.stops i = 0 := by simp [hp.stops_eq i, hguard.2]
            have hupd := sum_range_update p.workers_ p.stops
              (Function.update p.stops i (p.stops i + 1)) i hguard.1
              (fun u hu => Function.update_noteq hu _ _)
            simp only [Function.update_same] at hupd
            refine ⟨[], k, by simp [hrest], ?_, fun _ => rfl, ids, hsub, hacct⟩
            show k + ∑ u in Finset.range p.workers_,
              Function.update p.stops i (p.stops i + 1) u = p.pills
            omega
      · intro u
        show Function.update p.stops i (p.stops i + 1) u
          = if Function.update p.exited i true u = true then 1 else 0
        by_cases hu : u = i
        · subst hu
          simp [hp.stops_eq u, hguard.2]
        · simp only [Function.update_noteq hu]
          exact hp.stops_eq u
      · intro u hu
        by_cases hui : u = i
        · subst hui; exact hrun
        · exact hp.idle u (by
            have : Function.update p.exited i true u = true := hu
            rwa [Function.update_noteq hui] at this)
      · have hmono : ∀ u, p.exited u = true → Function.update p.exited i true u = true := by
          intro u hu
          by_cases hui : u = i
          · subst hui; simp
          · simpa only [Function.update_noteq hui] using hu
        simp only [StaticThreadPool.JoinCtrl] at hctrl ⊢
        cases hc : p.caller with
        | outside =>
          simp only [hc] at hctrl ⊢
          rcases hctrl with h1 | ⟨h1, h2, h3⟩
          · exact Or.inl h1
          · exact Or.inr ⟨h1, h2, fun u hu => hmono u (h3 u hu)⟩
        | putting j =>
          simp only [hc] at hctrl ⊢
          exact hctrl
        | joining j =>
          simp only [hc] at hctrl ⊢
          exact ⟨hctrl.1, hctrl.2.1, hctrl.2.2.1, fun u hu => hmono u (hctrl.2.2.2 u hu)⟩
    · refine ⟨⟨?_, hp.put_eq, hp.stops_eq, ?_, hp.joinable_all, hctrl⟩, rfl, rfl⟩
      · cases tasks with
        | nil =>
          cases k with
          | zero => simp [hb] at hbuf
          | succ k => simp [hb, List.replicate_succ] at hbuf
        | cons a ts =>
          simp only [hb, List.map_cons, List.cons_append, List.cons.injEq,
            Option.some.injEq] at hbuf
          obtain ⟨rfl, hrest⟩ := hbuf
          have hzero : ¬ 0 < ∑ u in Finset.range p.workers_, p.stops u := fun hpos => by
            simpa using hpill hpos
          refine ⟨ts, k, hrest, hsum, fun hpos => absurd hpos hzero, ids, hsub, ?_⟩
          intro id'
          have hupd := sum_holding_update p.workers_ p.running i hguard.1 (some id) id'
          have hold := hacct id'
          show p.record.count id'
            + ∑ u in Finset.range p.workers_,
                (if Function.update p.running i (some id) u = some id' then 1 else 0)
            + ts.count id' = ids.count id'
          rw [List.count_cons] at hold
          by_cases hid : id = id'
          · subst hid
            simp only [hrun, ↓reduceIte, reduceCtorEq, beq_self_eq_true] at hupd hold
            omega
          · have hne : (id == id') = false := by simpa using hid
            have hne' : ¬ (some id = some id') := by simpa using hid
            simp only [hrun, hne', ↓reduceIte, reduceCtorEq] at hupd
            simp only [hne, Bool.false_eq_true, ↓reduceIte] at hold
            omega
      · intro u hu
        show Function.update p.running i (some id) u = none
        by_cases hui : u = i
        · subst hui
          have : p.exited u = true := hu
          simp [hguard.2] at this
        · rw [Function.update_noteq hui]; exact hp.idle u hu
  · simp at h

/-- Before `Join()` is called, the `submit` event of a non-empty task keeps the
invariant of a single `Join()`. -/
theorem StaticThreadPool.SingleJoin.submit {p p' : StaticThreadPool} (hp : p.SingleJoin)
    (hc : p.caller = .outside) (ho : p.outcomes = []) (id : Nat)
    (h : p.step (.submit (some id)) = some p') :
    p'.SingleJoin ∧ p'.caller = .outside ∧ p'.outcomes = [] := by
  simp only [StaticThreadPool.step, Option.some.injEq] at h
  subst h
  obtain ⟨tasks, k, hbuf, hsum, hpill, ids, hsub, hacct⟩ := hp.queue
  have hctrl := hp.ctrl
  simp only [StaticThreadPool.JoinCtrl, hc, ho, true_and, List.nil_eq, reduceCtorEq,
    false_and, or_false] at hctrl
  have hk : k = 0 := by omega
  subst hk
  have hput := hp.put_eq
  refine ⟨⟨⟨tasks ++ [id], 0, ?_, hsum, ?_, ids ++ [id], ?_, ?_⟩, ?_, hp.stops_eq, hp.idle,
    hp.joinable_all, ?_⟩, hc, ho⟩
  · simp [StaticThreadPool.SubmitTask, BlockingQueue.Put, hbuf]
  · intro hpos
    exact absurd hpos (by
      show ¬ 0 < ∑ u in Finset.range p.workers_, p.stops u
      omega)
  · simp [StaticThreadPool.SubmitTask, hsub]
  · intro id'
    have hold := hacct id'
    show p.record.count id'
      + ∑ u in Finset.range p.workers_, (if p.running u = some id' then 1 else 0)
      + (tasks ++ [id]).count id' = (ids ++ [id]).count id'
    rw [List.count_append, List.count_append]
    omega
  · show p.put ++ [some id] = p.submitted ++ [some id] ++ List.replicate p.pills none
    rw [hput, hctrl]
    simp
  · simp only [StaticThreadPool.JoinCtrl, StaticThreadPool.SubmitTask, hc]
    exact Or.inl ⟨ho, hctrl⟩

/-- Calling `Join()` keeps the invariant of a single `Join()`. -/
theorem StaticThreadPool.SingleJoin.callJoin {p p' : StaticThreadPool} (hp : p.SingleJoin)
    (ho : p.outcomes = []) (h : p.step .callJoin = some p') :
    p'.SingleJoin ∧ p'.caller = .putting 0 := by
  simp only [StaticThreadPool.step] at h
  split at h
  · rename_i hc
    simp only [Option.some.injEq] at h
    subst h
    have hctrl := hp.ctrl
    simp only [StaticThreadPool.JoinCtrl, hc, ho, true_and, List.nil_eq, reduceCtorEq,
      false_and, or_false] at hctrl
    refine ⟨⟨hp.queue, hp.put_eq, hp.stops_eq, hp.idle, ?_, ?_⟩, rfl⟩
    · intro i _ _
      exact hp.joinable_all i ho (fun j hj => by simp [hc] at hj)
    · simp only [StaticThreadPool.JoinCtrl]
      exact ⟨ho, hctrl, Nat.zero_le _⟩
  · simp at h

/-- A step of the thread inside `Join()` keeps the invariant of a single
`Join()`. -/
theorem StaticThreadPool.SingleJoin.joinStep {p p' : StaticThreadPool} (hp : p.SingleJoin)
    (h : p.step .joinStep = some p') : p'.SingleJoin := by
  obtain ⟨tasks, k, hbuf, hsum, hpill, hids⟩ := hp.queue
  have hctrl := hp.ctrl
  have hput := hp.put_eq
  simp only [StaticThreadPool.step, StaticThreadPool.Join] at h
  cases hc : p.caller with
  | outside => simp [hc] at h
  | putting j =>
    simp only [StaticThreadPool.JoinCtrl, hc] at hctrl
    obtain ⟨ho, hpills, hle⟩ := hctrl
    simp only [hc] at h
    split at h
    · rename_i hlt
      simp only [Option.some.injEq] at h
      subst h
      refine ⟨⟨tasks, k + 1, ?_, ?_, hpill, hids⟩, ?_, hp.stops_eq, hp.idle, ?_, ?_⟩
      · simp [BlockingQueue.Put, hbuf, List.replicate_succ']
      · show k + 1 + ∑ u in Finset.range p.workers_, p.stops u = p.pills + 1
        omega
      · show p.put ++ [none] = p.submitted ++ List.replicate (p.pills + 1) none
        rw [hput, List.replicate_succ', List.append_assoc]
      · intro i _ _
        exact hp.joinable_all i ho (fun j' hj' => by simp [hc] at hj')
      · simp only [StaticThreadPool.JoinCtrl]
        exact ⟨ho, by omega, hlt⟩
    · rename_i hge
      simp only [Option.some.injEq] at h
      subst h
      refine ⟨⟨tasks, k, hbuf, hsum, hpill, hids⟩, hput, hp.stops_eq, hp.idle, ?_, ?_⟩
      · intro i _ _
        exact hp.joinable_all i ho (fun j' hj' => by simp [hc] at hj')
      · simp only [StaticThreadPool.JoinCtrl]
        exact ⟨ho, by omega, Nat.zero_le _, fun i hi => absurd hi (Nat.not_lt_zero i)⟩
  | joining j =>
    simp only [StaticThreadPool.JoinCtrl, hc] at hctrl
    obtain ⟨ho, hpills, hle, hex⟩ := hctrl
    simp only [hc] at h
    split at h
    · rename_i hlt
      have hj : p.joinable j = true :=
        hp.joinable_all j ho (fun j' hj' => by
          simp only [hc, JoinPc.joining.injEq] at hj'
          omega)
      simp only [hj, ↓reduceIte] at h
      split at h
      · rename_i hej
        simp only [Option.some.injEq] at h
        subst h
        refine ⟨⟨tasks, k, hbuf, hsum, hpill, hids⟩, hput, hp.stops_eq, hp.idle, ?_, ?_⟩
        · intro i _ hi
          have hji : j + 1 ≤ i := hi (j + 1) rfl
          show Function.update p.joinable j false i = true
          rw [Function.update_noteq (by omega)]
          exact hp.joinable_all i ho (fun j' hj' => by
            simp only [hc, JoinPc.joining.injEq] at hj'
            omega)
        · simp only [StaticThreadPool.JoinCtrl]
          refine ⟨ho, hpills, hlt, fun i hi => ?_⟩
          by_cases hij : i = j
          · subst hij; exact hej
          · exact hex i (by omega)
      · simp at h
    · rename_i hge
      simp only [Option.some.injEq] at h
      subst h
      refine ⟨⟨tasks, k, hbuf, hsum, hpill, hids⟩, hput, hp.stops_eq, hp.idle, ?_, ?_⟩
      · intro i hi _
        simp [ho] at hi
      · simp only [StaticThreadPool.JoinCtrl]
        exact Or.inr ⟨by simp [ho], hpills, fun i hi => hex i (by omega)⟩

/-- No event changes the number of workers. -/
theorem StaticThreadPool.step_workers (p p' : StaticThreadPool) (e : PoolEvent)
    (h : p.step e = some p') : p'.workers_ = p.workers_ := by
  cases e with
  | submit task =>
    simp only [StaticThreadPool.step, Option.some.injEq] at h
    subst h; rfl
  | work i =>
    simp only [StaticThreadPool.step] at h
    split at h
    · rcases StaticThreadPool.WorkerRoutine_cases p p' i h with
        ⟨_, _, rfl⟩ | ⟨_, _, _, rfl⟩ | ⟨_, _, _, _, rfl⟩ <;> rfl
    · simp at h
  | callJoin =>
    simp only [StaticThreadPool.step] at h
    split at h
    · simp only [Option.some.injEq] at h
      subst h; rfl
    · simp at h
  | joinStep =>
    simp only [StaticThreadPool.step, StaticThreadPool.Join] at h
    split at h
    · simp at h
    · split at h <;> simp only [Option.some.injEq] at h <;> subst h <;> rfl
    · split at h
      · split at h
        · split at h
          · simp only [Option.some.injEq] at h
            subst h; rfl
          · simp at h
        · simp only [Option.some.injEq] at h
          subst h; rfl
      · simp only [Option.some.injEq] at h
        subst h; rfl

/-- Each event adds its submitted task, if it has one, to the history. -/
theorem StaticThreadPool.step_submitted (p p' : StaticThreadPool) (e : PoolEvent)
    (h : p.step e = some p') : p'.submitted = p.submitted ++ submittedTasks [e] := by
  cases e with
  | submit task =>
    simp only [StaticThreadPool.step, Option.some.injEq] at h
    subst h; rfl
  | work i =>
    simp only [StaticThreadPool.step] at h
    split at h
    · rcases StaticThreadPool.WorkerRoutine_cases p p' i h with
        ⟨_, _, rfl⟩ | ⟨_, _, _, rfl⟩ | ⟨_, _, _, _, rfl⟩ <;> simp [submittedTasks]
    · simp at h
  | callJoin =>
    simp only [StaticThreadPool.step] at h
    split at h
    · simp only [Option.some.injEq] at h
      subst h; simp [submittedTasks]
    · simp at h
  | joinStep =>
    simp only [StaticThreadPool.step, StaticThreadPool.Join] at h
    split at h
    · simp at h
    · split at h <;> simp only [Option.some.injEq] at h <;> subst h <;> simp [submittedTasks]
    · split at h
      · split at h
        · split at h
          · simp only [Option.some.injEq] at h
            subst h; simp [submittedTasks]
          · simp at h
        · simp only [Option.some.injEq] at h
          subst h; simp [submittedTasks]
      · simp only [Option.some.injEq] at h
        subst h; simp [submittedTasks]

/-- The history `submitted` is the tasks of the `submit` events of the execution. -/
theorem StaticThreadPool.run_submitted (ops : List PoolEvent) :
    ∀ p p' : StaticThreadPool, p.run ops = some p' →
      p'.submitted = p.submitted ++ submittedTasks ops := by
  induction ops with
  | nil =>
    intro p p' h
    simp only [StaticThreadPool.run, runTrace, Option.some.injEq] at h
    subst h
    simp [submittedTasks]
  | cons e es ih =>
    intro p p' h
    simp only [StaticThreadPool.run, runTrace] at h
    cases hs : p.step e with
    | none => simp [hs] at h
    | some m =>
      rw [hs] at h
      rw [ih m p' h, StaticThreadPool.step_submitted p m e hs, List.append_assoc]
      congr 1
      simp only [submittedTasks]
      rw [← List.filterMap_append]
      rfl

/-- While `Join()` runs no task is submitted. -/
theorem submittedTasks_duringJoin (ops : List PoolEvent)
    (h : ∀ e ∈ ops, e.duringJoin = true) : submittedTasks ops = [] := by
  induction ops with
  | nil => rfl
  | cons e es ih =>
    have he := h e (List.mem_cons_self _ _)
    have hes := ih (fun e' he' => h e' (List.mem_cons_of_mem _ he'))
    cases e with
    | submit task => simp [PoolEvent.duringJoin] at he
    | work i => simpa [submittedTasks] using hes
    | callJoin => simp [PoolEvent.duringJoin] at he
    | joinStep => simpa [submittedTasks] using hes

/-- A step of `Join()` that leaves `Join()` adds an outcome. -/
theorem StaticThreadPool.joinStep_outside (p p' : StaticThreadPool)
    (h : p.step .joinStep = some p') (hc : p'.caller = .outside) : p'.outcomes ≠ [] := by
  simp only [StaticThreadPool.step, StaticThreadPool.Join] at h
  split at h
  · simp at h
  · split at h <;> simp only [Option.some.injEq] at h <;> subst h <;> simp at hc
  · split at h
    · split at h
      · split at h
        · simp only [Option.some.injEq] at h
          subst h; simp at hc
        · simp at h
      · simp only [Option.some.injEq] at h
        subst h; simp
    · simp only [Option.some.injEq] at h
      subst h; simp

/-- A sum of numbers that are at most 1, one of them 0, is below their number. -/
theorem sum_range_lt (n : Nat) (f : Nat → Nat) (j : Nat) (hj : j < n) (hf : ∀ i, f i ≤ 1)
    (h0 : f j = 0) : ∑ i in Finset.range n, f i < n := by
  have hmem : j ∈ Finset.range n := Finset.mem_range.2 hj
  have hle : ∑ i in (Finset.range n).erase j, f i ≤ ((Finset.range n).erase j).card • 1 :=
    Finset.sum_le_card_nsmul _ _ _ (fun i _ => hf i)
  rw [← Finset.add_sum_erase _ f hmem, h0]
  simp only [Finset.card_erase_of_mem hmem, Finset.card_range, smul_eq_mul, mul_one] at hle
  omega

/-- The number of workers that hold a task after one worker has changed the
task it holds. -/
theorem sum_busy_update (n : Nat) (running : Nat → Option Nat) (i : Nat) (hi : i < n)
    (v : Option Nat) :
    (∑ u in Finset.range n, (if (Function.update running i v u).isSome then 1 else 0))
        + (if (running i).isSome then 1 else 0)
      = (∑ u in Finset.range n, (if (running u).isSome then 1 else 0))
        + (if v.isSome then 1 else 0) := by
  have h := sum_range_update n (fun u => if (running u).isSome then 1 else 0)
    (fun u => if (Function.update running i v u).isSome then 1 else 0) i hi
    (fun u hu => by simp only [Function.update_noteq hu])
  simpa using h

/-- Every step of `Join()` and every step of a worker lowers the measure. -/
theorem StaticThreadPool.step_joinMeasure (p p' : StaticThreadPool) (e : PoolEvent)
    (he : e.duringJoin = true) (h : p.step e = some p') : p'.joinMeasure < p.joinMeasure := by
  cases e with
  | submit task => simp [PoolEvent.duringJoin] at he
  | callJoin => simp [PoolEvent.duringJoin] at he
  | work i =>
    simp only [StaticThreadPool.step] at h
    split at h
    · rename_i hguard
      rcases StaticThreadPool.WorkerRoutine_cases p p' i h with
        ⟨id, hrun, rfl⟩ | ⟨rest, hrun, hb, rfl⟩ | ⟨id, rest, hrun, hb, rfl⟩
      · have hupd := sum_busy_update p.workers_ p.running i hguard.1 none
        simp only [hrun, Option.isSome_some, ↓reduceIte, Option.isSome_none,
          Bool.false_eq_true] at hupd
        simp only [StaticThreadPool.joinMeasure]
        omega
      · simp only [StaticThreadPool.joinMeasure, hb, List.length_cons]
        omega
      · have hupd := sum_busy_update p.workers_ p.running i hguard.1 (some id)
        simp only [hrun, Option.isSome_some, ↓reduceIte, Option.isSome_none,
          Bool.false_eq_true] at hupd
        simp only [StaticThreadPool.joinMeasure, hb, List.length_cons]
        omega
    · simp at h
  | joinStep =>
    simp only [StaticThreadPool.step, StaticThreadPool.Join] at h
    split at h
    · simp at h
    · rename_i j hc
      split at h
      · rename_i hlt
        simp only [Option.some.injEq] at h
        subst h
        simp only [StaticThreadPool.joinMeasure, hc, BlockingQueue.Put, List.length_append,
          List.length_singleton]
        omega
      · simp only [Option.some.injEq] at h
        subst h
        simp only [StaticThreadPool.joinMeasure, hc]
        omega
    · rename_i j hc
      split at h
      · rename_i hlt
        split at h
        · split at h
          · simp only [Option.some.injEq] at h
            subst h
            simp only [StaticThreadPool.joinMeasure, hc]
            omega
          · simp at h
        · simp only [Option.some.injEq] at h
          subst h
          simp only [StaticThreadPool.joinMeasure, hc]
          omega
      · simp only [Option.some.injEq] at h
        subst h
        simp only [StaticThreadPool.joinMeasure, hc]
        omega

/-- The invariant of a single `Join()` during the whole execution: after the
events before `Join()`, the call, and the events while `Join()` runs. -/
theorem StaticThreadPool.run_singleJoin (n : Nat) (pre post : List PoolEvent)
    (hpre : ∀ e ∈ pre, e.beforeJoin = true) (hpost : ∀ e ∈ post, e.duringJoin = true)
    (p : StaticThreadPool)
    (h : StaticThreadPool.run (StaticThreadPool.new n) (pre ++ .callJoin :: post) = some p) :
    p.SingleJoin ∧ p.workers_ = n ∧ (p.caller = .outside → p.outcomes ≠ []) := by
  simp only [StaticThreadPool.run, runTrace_append] at h
  cases h1 : runTrace StaticThreadPool.step (StaticThreadPool.new n) pre with
  | none => simp [h1] at h
  | some p1 =>
    simp only [h1, Option.some_bind, runTrace] at h
    cases h2 : p1.step .callJoin with
    | none => simp [h2] at h
    | some p2 =>
      simp only [h2, Option.some_bind] at h
      have hinit : (StaticThreadPool.new n).SingleJoin
          ∧ (StaticThreadPool.new n).caller = .outside
          ∧ (StaticThreadPool.new n).outcomes = []
          ∧ (StaticThreadPool.new n).workers_ = n := by
        refine ⟨⟨⟨[], 0, rfl, ?_, fun _ => rfl, [], rfl, ?_⟩, rfl, fun i => rfl, fun i _ => rfl,
          fun i _ _ => rfl, ?_⟩, rfl, rfl, rfl⟩
        · simp [StaticThreadPool.new, StaticThreadPool.StartWorkers]
        · intro id
          simp [StaticThreadPool.new, StaticThreadPool.StartWorkers]
        · simp [StaticThreadPool.JoinCtrl, StaticThreadPool.new, StaticThreadPool.StartWorkers]
      have hp1 := runTrace_invariant StaticThreadPool.step
        (fun q => q.SingleJoin ∧ q.caller = .outside ∧ q.outcomes = [] ∧ q.workers_ = n) pre
        (by
          intro e he a b ha hab
          have hw := StaticThreadPool.step_workers a b e hab
          cases e with
          | submit task =>
            cases task with
            | none => simpa [PoolEvent.beforeJoin] using hpre _ he
            | some id =>
              obtain ⟨hb, hc, ho⟩ := ha.1.submit ha.2.1 ha.2.2.1 id hab
              exact ⟨hb, hc, ho, hw ▸ ha.2.2.2⟩
          | work i =>
            obtain ⟨hb, hc, ho⟩ := ha.1.work i hab
            exact ⟨hb, hc ▸ ha.2.1, ho ▸ ha.2.2.1, hw ▸ ha.2.2.2⟩
          | callJoin => simpa [PoolEvent.beforeJoin] using hpre _ he
          | joinStep => simpa [PoolEvent.beforeJoin] using hpre _ he)
        (StaticThreadPool.new n) p1 hinit h1
      obtain ⟨hp2, hc2⟩ := hp1.1.callJoin hp1.2.2.1 h2
      have hw2 : p2.workers_ = n := (StaticThreadPool.step_workers p1 p2 _ h2).trans hp1.2.2.2
      exact runTrace_invariant StaticThreadPool.step
        (fun q => q.SingleJoin ∧ q.workers_ = n ∧ (q.caller = .outside → q.outcomes ≠ [])) post
        (by
          intro e he a b ha hab
          have hw := StaticThreadPool.step_workers a b e hab
          cases e with
          | submit task => simpa [PoolEvent.duringJoin] using hpost _ he
          | work i =>
            obtain ⟨hb, hc, ho⟩ := ha.1.work i hab
            exact ⟨hb, hw ▸ ha.2.1, fun hout => ho ▸ ha.2.2 (hc ▸ hout)⟩
          | callJoin => simpa [PoolEvent.duringJoin] using hpost _ he
          | joinStep =>
            exact ⟨ha.1.joinStep hab, hw ▸ ha.2.1,
              fun hout => StaticThreadPool.joinStep_outside a b hab hout⟩)
        p2 p ⟨hp2, hw2, fun hout => by simp [hc2] at hout⟩ h

/-- C7: in a pool of `n ≥ 1` workers, for every execution in which non-empty
tasks are submitted while workers step (a worker takes the head of the queue in
one step and calls the task it took in a later step, other threads stepping in
between), then `Join()` is called once and runs while workers step: when
`Join()` has returned, the tasks recorded are, in some order, exactly the tasks
of the `submit` events, each recorded as often as it was submitted; `Join()`
has put exactly `n` empty tasks, what was put into the queue being the
submitted tasks followed by these; every worker has taken exactly one empty
task, has left its loop and holds no task; and the queue is empty.  As long as
`Join()` has not returned, a step of `Join()` or of a worker is enabled, and
each such step lowers `joinMeasure`, so that `Join()` returns after at most
that many steps. -/
theorem thread_pool_exactly_once (n : Nat) (hn : 1 ≤ n) (pre post : List PoolEvent)
    (hpre : ∀ e ∈ pre, e.beforeJoin = true) (hpost : ∀ e ∈ post, e.duringJoin = true)
    (p : StaticThreadPool)
    (h : StaticThreadPool.run (StaticThreadPool.new n) (pre ++ .callJoin :: post) = some p) :
    (p.outcomes = [.returned] →
        (p.record.map some).Perm (submittedTasks pre)
          ∧ (∀ id, p.record.count id
              = (submittedTasks pre).countP (fun task => decide (task = some id)))
          ∧ p.pills = n
          ∧ p.put = submittedTasks pre ++ List.replicate n none
          ∧ (∀ i, i < n → p.exited i = true ∧ p.stops i = 1 ∧ p.running i = none)
          ∧ p.tasks_.buffer_ = []
          ∧ p.caller = .outside)
      ∧ (p.outcomes ≠ [.returned] →
        p.outcomes = []
          ∧ ((∃ p', p.step .joinStep = some p') ∨ ∃ i p', p.step (.work i) = some p'))
      ∧ (∀ e p', e.duringJoin = true → p.step e = some p' →
        p'.joinMeasure < p.joinMeasure) := by
  refine (and_assoc.1 ⟨?_, fun e p' he hstep => StaticThreadPool.step_joinMeasure p p' e he hstep⟩)
  obtain ⟨hp, hw, hout⟩ := StaticThreadPool.run_singleJoin n pre post hpre hpost p h
  obtain ⟨tasks, k, hbuf, hsum, hpill, ids, hsub, hacct⟩ := hp.queue
  have hctrl := hp.ctrl
  simp only [StaticThreadPool.JoinCtrl] at hctrl
  have hlink : p.submitted = submittedTasks pre := by
    have := StaticThreadPool.run_submitted _ _ p h
    rw [this]
    have hpost' := submittedTasks_duringJoin post hpost
    simp only [submittedTasks] at hpost' ⊢
    simp [StaticThreadPool.new, StaticThreadPool.StartWorkers, List.filterMap_append, hpost']
  constructor
  · intro hret
    cases hc : p.caller with
    | putting j => simp [hc, hret] at hctrl
    | joining j => simp [hc, hret] at hctrl
    | outside =>
      simp only [hc, hret, reduceCtorEq, false_and, true_and, false_or] at hctrl
      obtain ⟨hpills, hex⟩ := hctrl
      have hstops : ∀ i ∈ Finset.range p.workers_, p.stops i = 1 := by
        intro i hi
        simp [hp.stops_eq i, hex i (Finset.mem_range.1 hi)]
      have htotal : ∑ i in Finset.range p.workers_, p.stops i = p.workers_ := by
        rw [Finset.sum_congr rfl hstops]
        simp
      have hk : k = 0 := by omega
      have htasks : tasks = [] := hpill (by omega)
      subst hk htasks
      have hidle : ∀ i, i < p.workers_ → p.running i = none :=
        fun i hi => hp.idle i (hex i hi)
      have hnone : ∀ id, ∑ i in Finset.range p.workers_,
          (if p.running i = some id then 1 else 0) = 0 := by
        intro id
        refine Finset.sum_eq_zero (fun i hi => ?_)
        simp [hidle i (Finset.mem_range.1 hi)]
      have hcount : ∀ id, p.record.count id = ids.count id := by
        intro id
        have := hacct id
        rw [hnone id] at this
        simpa using this
      have hperm : p.record.Perm ids := List.perm_iff_count.2 hcount
      refine ⟨?_, ?_, hw ▸ hpills, ?_, ?_, by simpa using hbuf, rfl⟩
      · rw [← hlink, hsub]
        exact hperm.map some
      · intro id
        rw [← hlink, hsub, List.countP_map, hcount id, List.count]
        congr 1
        funext x
        by_cases hx : x = id
        · simp [hx]
        · simp [hx]
      · rw [hp.put_eq, hlink, hpills, hw]
      · intro i hi
        have hi' : i < p.workers_ := hw ▸ hi
        exact ⟨hex i hi', hstops i (Finset.mem_range.2 hi'), hidle i hi'⟩
  · intro hnot
    cases hc : p.caller with
    | outside =>
      simp only [hc] at hctrl
      rcases hctrl with h1 | h1
      · exact absurd h1.1 (hout hc)
      · exact absurd h1.1 hnot
    | putting j =>
      simp only [hc] at hctrl
      refine ⟨hctrl.1, Or.inl ?_⟩
      simp only [StaticThreadPool.step, StaticThreadPool.Join, hc]
      split <;> exact ⟨_, rfl⟩
    | joining j =>
      simp only [hc] at hctrl
      obtain ⟨ho, hpills, hle, hex⟩ := hctrl
      refine ⟨ho, ?_⟩
      by_cases hlt : j < p.workers_
      · have hj : p.joinable j = true :=
          hp.joinable_all j ho (fun j' hj' => by
            simp only [hc, JoinPc.joining.injEq] at hj'
            omega)
        cases hej : p.exited j with
        | true =>
          left
          simp only [StaticThreadPool.step, StaticThreadPool.Join, hc, hlt, hj, hej, ↓reduceIte]
          exact ⟨_, rfl⟩
        | false =>
          right
          refine ⟨j, ?_⟩
          simp only [StaticThreadPool.step, hlt, hej, and_self, ↓reduceIte,
            StaticThreadPool.WorkerRoutine]
          cases hrun : p.running j with
          | some id => exact ⟨_, rfl⟩
          | none =>
            have hone : ∀ i, p.stops i ≤ 1 := fun i => by
              rw [hp.stops_eq i]; split <;> omega
            have hzero : p.stops j = 0 := by simp [hp.stops_eq j, hej]
            have hlt' := sum_range_lt p.workers_ p.stops j hlt hone hzero
            have hk : 0 < k := by omega
            simp only [BlockingQueue.Take, BlockingQueue.TakeLocked]
            cases hb : p.tasks_.buffer_ with
            | nil =>
              rw [hb] at hbuf
              have := congrArg List.length hbuf
              simp at this
              omega
            | cons x rest =>
              cases x with
              | none => exact ⟨_, rfl⟩
              | some id => exact ⟨_, rfl⟩
      · left
        simp only [StaticThreadPool.step, StaticThreadPool.Join, hc, hlt, ↓reduceIte]
        exact ⟨_, rfl⟩

/-- Two workers and the tasks 1, 2, 3: worker 0 takes 1, worker 1 takes 2 and
calls it before worker 0 calls 1, so the record is 2, 1, 3; each worker takes
one empty task, `Join()` returns. -/
theorem thread_pool_exactly_once_witness :
    ∃ p, StaticThreadPool.run (StaticThreadPool.new 2)
        ([.submit (some 1), .submit (some 2), .work 0, .work 1, .work 1, .submit (some 3),
            .work 0]
          ++ .callJoin :: [.joinStep, .work 0, .joinStep, .joinStep, .work 0, .work 1, .work 0,
            .joinStep, .joinStep, .joinStep]) = some p
      ∧ p.outcomes = [.returned] ∧ p.record = [2, 1, 3]
      ∧ submittedTasks [.submit (some 1), .submit (some 2), .work 0, .work 1, .work 1,
          .submit (some 3), .work 0] = [some 1, some 2, some 3]
      ∧ ((p.record.map some).Perm (submittedTasks [.submit (some 1), .submit (some 2), .work 0,
            .work 1, .work 1, .submit (some 3), .work 0])
          ∧ (∀ id, p.record.count id
              = (submittedTasks [.submit (some 1), .submit (some 2), .work 0, .work 1, .work 1,
                  .submit (some 3), .work 0]).countP (fun task => decide (task = some id)))
          ∧ p.pills = 2
          ∧ p.put = submittedTasks [.submit (some 1), .submit (some 2), .work 0, .work 1,
              .work 1, .submit (some 3), .work 0] ++ List.replicate 2 none
          ∧ (∀ i, i < 2 → p.exited i = true ∧ p.stops i = 1 ∧ p.running i = none)
          ∧ p.tasks_.buffer_ = []
          ∧ p.caller = .outside) :=
  ⟨_, rfl, rfl, rfl, rfl,
    (thread_pool_exactly_once 2 (by norm_num)
      [.submit (some 1), .submit (some 2), .work 0, .work 1, .work 1, .submit (some 3), .work 0]
      [.joinStep, .work 0, .joinStep, .joinStep, .work 0, .work 1, .work 0,
        .joinStep, .joinStep, .joinStep]
      (by decide) (by decide) _ rfl).1 rfl⟩

/-- Every enabled event keeps the invariant of every execution. -/
theorem StaticThreadPool.Always.step_always {p p' : StaticThreadPool} (hp : p.Always)
    (e : PoolEvent) (h : p.step e = some p') : p'.Always := by
  obtain ⟨hfifo, hidle, hjoined, hafter⟩ := hp
  cases e with
  | submit task =>
    simp only [StaticThreadPool.step, Option.some.injEq] at h
    subst h
    refine ⟨?_, hidle, hjoined, hafter⟩
    simp [StaticThreadPool.SubmitTask, BlockingQueue.Put, ← hfifo]
  | work i =>
    simp only [StaticThreadPool.step] at h
    split at h
    · rename_i hguard
      rcases StaticThreadPool.WorkerRoutine_cases p p' i h with
        ⟨id, hrun, rfl⟩ | ⟨rest, hrun, hb, rfl⟩ | ⟨id, rest, hrun, hb, rfl⟩
      · refine ⟨hfifo, fun u hu => ?_, hjoined, hafter⟩
        show Function.update p.running i none u = none
        by_cases hui : u = i
        · subst hui; simp
        · rw [Function.update_noteq hui]; exact hidle u hu
      · have hmono : ∀ u, p.exited u = true → Function.update p.exited i true u = true := by
          intro u hu
          by_cases hui : u = i
          · subst hui; simp
          · simpa only [Function.update_noteq hui] using hu
        refine ⟨by simp [← hfifo, hb], fun u hu => ?_,
          fun j hj u hu => ⟨(hjoined j hj u hu).1, hmono u (hjoined j hj u hu).2⟩,
          fun hr u hu => ⟨(hafter hr u hu).1, hmono u (hafter hr u hu).2⟩⟩
        by_cases hui : u = i
        · subst hui; exact hrun
        · exact hidle u (by
            have : Function.update p.exited i true u = true := hu
            rwa [Function.update_noteq hui] at this)
      · refine ⟨by simp [← hfifo, hb], fun u hu => ?_, hjoined, hafter⟩
        show Function.update p.running i (some id) u = none
        by_cases hui : u = i
        · subst hui
          have : p.exited u = true := hu
          simp [hguard.2] at this
        · rw [Function.update_noteq hui]; exact hidle u hu
    · simp at h
  | callJoin =>
    simp only [StaticThreadPool.step] at h
    split at h
    · simp only [Option.some.injEq] at h
      subst h
      exact ⟨hfifo, hidle, fun j hj => by simp at hj, hafter⟩
    · simp at h
  | joinStep =>
    simp only [StaticThreadPool.step, StaticThreadPool.Join] at h
    split at h
    · simp at h
    · split at h
      · simp only [Option.some.injEq] at h
        subst h
        exact ⟨by simp [BlockingQueue.Put, ← hfifo], hidle, fun j hj => by simp at hj, hafter⟩
      · simp only [Option.some.injEq] at h
        subst h
        refine ⟨hfifo, hidle, fun j hj i hi => ?_, hafter⟩
        simp only [JoinPc.joining.injEq] at hj
        omega
    · rename_i j hc
      split at h
      · split at h
        · split at h
          · rename_i hej
            simp only [Option.some.injEq] at h
            subst h
            refine ⟨hfifo, hidle, fun j' hj' i hi => ?_, fun hr i hi => ?_⟩
            · simp only [JoinPc.joining.injEq] at hj'
              show Function.update p.joinable j false i = false ∧ p.exited i = true
              by_cases hij : i = j
              · subst hij; exact ⟨by simp, hej⟩
              · rw [Function.update_noteq hij]
                exact hjoined j hc i (by omega)
            · show Function.update p.joinable j false i = false ∧ p.exited i = true
              by_cases hij : i = j
              · subst hij; exact ⟨by simp, hej⟩
              · rw [Function.update_noteq hij]
                exact hafter hr i hi
          · simp at h
        · simp only [Option.some.injEq] at h
          subst h
          refine ⟨hfifo, hidle, fun j' hj' => by simp at hj', fun hr => hafter ?_⟩
          simpa using hr
      · rename_i hge
        simp only [Option.some.injEq] at h
        subst h
        refine ⟨hfifo, hidle, fun j' hj' => by simp at hj', fun _ i hi => ?_⟩
        have hi' : i < p.workers_ := hi
        exact hjoined j hc i (by omega)

/-- The invariant of every execution holds in every state reached from a new pool,
and the number of workers stays what the constructor was given. -/
theorem StaticThreadPool.run_always (n : Nat) (ops : List PoolEvent) (p : StaticThreadPool)
    (h : StaticThreadPool.run (StaticThreadPool.new n) ops = some p) :
    p.Always ∧ p.workers_ = n :=
  runTrace_invariant StaticThreadPool.step (fun q => q.Always ∧ q.workers_ = n) ops
    (fun e _ a b ha hab =>
      ⟨ha.1.step_always e hab, (StaticThreadPool.step_workers a b e hab).trans ha.2⟩)
    (StaticThreadPool.new n) p
    ⟨⟨rfl, fun _ _ => rfl,
      fun j hj => by simp [StaticThreadPool.new, StaticThreadPool.StartWorkers] at hj,
      fun hr => by simp [StaticThreadPool.new, StaticThreadPool.StartWorkers] at hr⟩, rfl⟩ h

/-- The first loop of `Join()` runs to its end without waiting: `d` steps put
`d` empty tasks and change nothing else but the place of the caller. -/
theorem StaticThreadPool.run_putting (d : Nat) :
    ∀ (j : Nat) (p : StaticThreadPool), p.caller = .putting j → j + d = p.workers_ →
      ∃ p', p.run (List.replicate d .joinStep) = some p'
        ∧ p'.caller = .putting p.workers_
        ∧ p'.workers_ = p.workers_
        ∧ p'.tasks_.buffer_ = p.tasks_.buffer_ ++ List.replicate d none
        ∧ p'.joinable = p.joinable
        ∧ p'.outcomes = p.outcomes
        ∧ p'.record = p.record := by
  induction d with
  | zero =>
    intro j p hc hj
    exact ⟨p, rfl, by rw [hc, ← hj]; rfl, rfl, by simp, rfl, rfl, rfl⟩
  | succ d ih =>
    intro j p hc hj
    have hlt : j < p.workers_ := by omega
    obtain ⟨p', h1, h2, h3, h4, h5, h6, h7⟩ := ih (j + 1)
      { p with
        tasks_ := p.tasks_.Put none
        put := p.put ++ [none]
        pills := p.pills + 1
        caller := .putting (j + 1) } rfl (by show j + 1 + d = p.workers_; omega)
    refine ⟨p', ?_, h2, h3, ?_, h5, h6, h7⟩
    · simp only [StaticThreadPool.run, List.replicate_succ, runTrace, StaticThreadPool.step,
        StaticThreadPool.Join, hc, hlt, ↓reduceIte, Option.some_bind]
      exact h1
    · rw [h4]
      simp [BlockingQueue.Put, List.replicate_succ]

/-- After a `Join()` has returned every enabled event keeps `AfterJoin`: no
worker steps, `submit` and the first loop of `Join()` only append to the queue,
and the second loop of `Join()` ends at its first worker. -/
theorem StaticThreadPool.AfterJoin.step_afterJoin {p0 q q' : StaticThreadPool}
    (hq : StaticThreadPool.AfterJoin p0
      (if p0.workers_ = 0 then .returned else .threw) q)
    (e : PoolEvent) (h : q.step e = some q') :
    StaticThreadPool.AfterJoin p0 (if p0.workers_ = 0 then .returned else .threw) q' := by
  obtain ⟨hw, hgone, htaken, hrecord, ⟨l, hput, hbuf⟩, hfirst, ⟨k, hout⟩⟩ := hq
  cases e with
  | submit task =>
    simp only [StaticThreadPool.step, Option.some.injEq] at h
    subst h
    refine ⟨hw, hgone, htaken, hrecord, ⟨l ++ [task], ?_, ?_⟩, hfirst, ⟨k, hout⟩⟩
    · show q.put ++ [task] = p0.put ++ (l ++ [task])
      rw [hput, List.append_assoc]
    · show (q.tasks_.Put task).buffer_ = p0.tasks_.buffer_ ++ (l ++ [task])
      simp only [BlockingQueue.Put, hbuf, List.append_assoc]
  | work i =>
    simp only [StaticThreadPool.step] at h
    split at h
    · rename_i hguard
      have := (hgone i hguard.1).2
      simp [hguard.2] at this
    · simp at h
  | callJoin =>
    simp only [StaticThreadPool.step] at h
    split at h
    · simp only [Option.some.injEq] at h
      subst h
      exact ⟨hw, hgone, htaken, hrecord, ⟨l, hput, hbuf⟩, fun j hj => by simp at hj, ⟨k, hout⟩⟩
    · simp at h
  | joinStep =>
    simp only [StaticThreadPool.step, StaticThreadPool.Join] at h
    split at h
    · simp at h
    · split at h
      · simp only [Option.some.injEq] at h
        subst h
        refine ⟨hw, hgone, htaken, hrecord, ⟨l ++ [none], ?_, ?_⟩,
          fun j hj => by simp at hj, ⟨k, hout⟩⟩
        · show q.put ++ [none] = p0.put ++ (l ++ [none])
          rw [hput, List.append_assoc]
        · show (q.tasks_.Put none).buffer_ = p0.tasks_.buffer_ ++ (l ++ [none])
          simp only [BlockingQueue.Put, hbuf, List.append_assoc]
      · simp only [Option.some.injEq] at h
        subst h
        refine ⟨hw, hgone, htaken, hrecord, ⟨l, hput, hbuf⟩, fun j hj => ?_, ⟨k, hout⟩⟩
        simp only [JoinPc.joining.injEq] at hj
        exact hj.symm
    · rename_i j hc
      have hj0 : j = 0 := hfirst j hc
      subst hj0
      split at h
      · rename_i hlt
        have hnj : q.joinable 0 = false := (hgone 0 hlt).1
        simp only [hnj, Bool.false_eq_true, ↓reduceIte, Option.some.injEq] at h
        subst h
        refine ⟨hw, hgone, htaken, hrecord, ⟨l, hput, hbuf⟩, fun j hj => by simp at hj,
          ⟨k + 1, ?_⟩⟩
        have hne : p0.workers_ ≠ 0 := by omega
        show q.outcomes ++ [JoinOutcome.threw] = _
        rw [hout, List.replicate_succ', ← List.append_assoc]
        simp [hne]
      · rename_i hge
        simp only [Option.some.injEq] at h
        subst h
        refine ⟨hw, hgone, htaken, hrecord, ⟨l, hput, hbuf⟩, fun j hj => by simp at hj,
          ⟨k + 1, ?_⟩⟩
        have he : p0.workers_ = 0 := by omega
        show q.outcomes ++ [JoinOutcome.returned] = _
        rw [hout, List.replicate_succ', ← List.append_assoc]
        simp [he]

/-- C8 as stated fails: in a pool without workers the second `Join()` returns,
and in a pool with one worker the second `Join()` ends with the
`std::system_error` of `join()` on the thread the first `Join()` has joined. -/
theorem second_join_does_not_block :
    (StaticThreadPool.run (StaticThreadPool.new 0)
        [.callJoin, .joinStep, .joinStep, .callJoin, .joinStep, .joinStep]).map
        (fun p => (p.caller, p.outcomes)) = some (.outside, [.returned, .returned])
      ∧ (StaticThreadPool.run (StaticThreadPool.new 1)
        [.callJoin, .joinStep, .joinStep, .work 0, .joinStep, .joinStep,
          .callJoin, .joinStep, .joinStep, .joinStep]).map
        (fun p => (p.caller, p.outcomes)) = some (.outside, [.returned, .threw]) := by
  constructor <;> rfl

/-- C8, amended: in every state `p` of a pool of `n` workers in which a `Join()`
has returned and no `Join()` is running, a further call of `Join()` never
waits.  Run on its own it is over after the call and `n + 2` steps, having put
`n` further empty tasks into the queue and run no task; with `n = 0` it has
returned, with `n ≥ 1` it has ended with the `std::system_error` that `join()`
raises on a thread that is not joinable.  And whatever events follow `p`, in
whatever order (further calls and steps of `Join()`, `submit` events, attempts
of workers to step): no step of any worker is enabled, nothing is taken from
the queue and no task is recorded any more, everything put since `p` is still
in the queue behind what was queued in `p`, a running `Join()` can always take
its next step, and every `Join()` ended since `p` ended that same way. -/
theorem second_join_ends (n : Nat) (ops : List PoolEvent) (p : StaticThreadPool)
    (h : StaticThreadPool.run (StaticThreadPool.new n) ops = some p)
    (hret : JoinOutcome.returned ∈ p.outcomes) (hc : p.caller = .outside) :
    (∃ p', p.run (.callJoin :: List.replicate (n + 2) .joinStep) = some p'
        ∧ p'.caller = .outside
        ∧ p'.outcomes = p.outcomes ++ [if n = 0 then .returned else .threw]
        ∧ p'.tasks_.buffer_ = p.tasks_.buffer_ ++ List.replicate n none
        ∧ p'.record = p.record)
      ∧ (∀ (ops' : List PoolEvent) (q : StaticThreadPool), p.run ops' = some q →
        (∀ i, q.step (.work i) = none)
          ∧ q.taken = p.taken
          ∧ q.record = p.record
          ∧ (∃ l, q.put = p.put ++ l ∧ q.tasks_.buffer_ = p.tasks_.buffer_ ++ l)
          ∧ (q.caller ≠ .outside → ∃ q', q.step .joinStep = some q')
          ∧ ∃ k, q.outcomes
              = p.outcomes ++ List.replicate k (if n = 0 then .returned else .threw)) := by
  obtain ⟨hp, hw⟩ := StaticThreadPool.run_always n ops p h
  constructor
  · obtain ⟨p1, h1, h2, h3, h4, h5, h6, h7⟩ := StaticThreadPool.run_putting n 0
      { p with caller := .putting 0 } rfl (by show 0 + n = p.workers_; omega)
    have h2' : p1.caller = .putting p1.workers_ := by rw [h3]; exact h2
    have hw1 : p1.workers_ = n := h3.trans hw
    have hrun : p.run (.callJoin :: List.replicate (n + 2) .joinStep)
        = p1.run [.joinStep, .joinStep] := by
      simp only [StaticThreadPool.run] at h1 ⊢
      rw [List.replicate_add]
      simp only [runTrace, StaticThreadPool.step, hc, Option.some_bind, runTrace_append, h1]
    by_cases hn : n = 0
    · refine ⟨{ p1 with caller := .outside, outcomes := p1.outcomes ++ [.returned] },
        ?_, rfl, ?_, ?_, h7⟩
      · rw [hrun]
        simp [StaticThreadPool.run, runTrace, StaticThreadPool.step, StaticThreadPool.Join, h2',
          hw1, hn]
      · simp [h6, hn]
      · exact h4
    · have hj : p1.joinable 0 = false := by
        rw [h5]
        exact (hp.after hret 0 (by omega)).1
      refine ⟨{ p1 with caller := .outside, outcomes := p1.outcomes ++ [.threw] },
        ?_, rfl, ?_, ?_, h7⟩
      · rw [hrun]
        have hpos : 0 < n := Nat.pos_of_ne_zero hn
        simp [StaticThreadPool.run, runTrace, StaticThreadPool.step, StaticThreadPool.Join, h2',
          hw1, hpos, hj]
      · simp [h6, hn]
      · exact h4
  · intro ops' q hq
    have hstart : StaticThreadPool.AfterJoin p
        (if p.workers_ = 0 then .returned else .threw) p :=
      ⟨rfl, fun i hi => hp.after hret i hi, rfl, rfl, ⟨[], by simp, by simp⟩,
        fun j hj => by simp [hc] at hj, ⟨0, by simp⟩⟩
    have hend := runTrace_invariant StaticThreadPool.step
      (StaticThreadPool.AfterJoin p (if p.workers_ = 0 then .returned else .threw)) ops'
      (fun e _ a b ha hab => ha.step_afterJoin e hab) p q hstart hq
    rw [hw] at hend
    obtain ⟨hwq, hgone, htaken, hrecord, hqueued, hfirst, hout⟩ := hend
    refine ⟨fun i => ?_, htaken, hrecord, hqueued, fun hcq => ?_, hout⟩
    · simp only [StaticThreadPool.step]
      split
      · rename_i hguard
        have := (hgone i hguard.1).2
        simp [hguard.2] at this
      · rfl
    · simp only [StaticThreadPool.step, StaticThreadPool.Join]
      cases hcc : q.caller with
      | outside => exact absurd hcc hcq
      | putting j =>
        simp only
        split <;> exact ⟨_, rfl⟩
      | joining j =>
        have hj0 : j = 0 := hfirst j hcc
        subst hj0
        simp only
        split
        · rename_i hlt
          simp only [(hgone 0 hlt).1, Bool.false_eq_true, ↓reduceIte]
          exact ⟨_, rfl⟩
        · exact ⟨_, rfl⟩

/-- One worker, no task: the first `Join()` returns.  The second `Join()` run on
its own puts one more empty task and ends with `std::system_error`; and with a
task submitted and the worker trying to step while the second `Join()` runs,
the worker cannot step, and the empty task and the task stay in the queue. -/
theorem second_join_ends_witness :
    ∃ p p' q, StaticThreadPool.run (StaticThreadPool.new 1)
        [.callJoin, .joinStep, .joinStep, .work 0, .joinStep, .joinStep] = some p
      ∧ p.outcomes = [.returned] ∧ p.caller = .outside
      ∧ p.run (.callJoin :: List.replicate (1 + 2) .joinStep) = some p'
      ∧ p'.outcomes = [.returned, .threw] ∧ p'.tasks_.buffer_ = [none]
      ∧ p.run [.callJoin, .joinStep, .submit (some 5), .joinStep, .joinStep] = some q
      ∧ q.tasks_.buffer_ = [none, some 5] ∧ q.outcomes = [.returned, .threw]
      ∧ q.step (.work 0) = none
      ∧ ((∀ i, q.step (.work i) = none)
          ∧ q.taken = p.taken
          ∧ q.record = p.record
          ∧ (∃ l, q.put = p.put ++ l ∧ q.tasks_.buffer_ = p.tasks_.buffer_ ++ l)
          ∧ (q.caller ≠ .outside → ∃ q', q.step .joinStep = some q')
          ∧ ∃ k, q.outcomes
              = p.outcomes ++ List.replicate k (if 1 = 0 then .returned else .threw)) :=
  ⟨_, _, _, rfl, rfl, rfl, rfl, rfl, rfl, rfl, rfl, rfl, rfl,
    (second_join_ends 1 [.callJoin, .joinStep, .joinStep, .work 0, .joinStep, .joinStep] _ rfl
      (by decide) rfl).2
      [.callJoin, .joinStep, .submit (some 5), .joinStep, .joinStep] _ rfl⟩

/-- A worker that has left its loop stays out. -/
theorem StaticThreadPool.step_exited (p p' : StaticThreadPool) (e : PoolEvent) (i : Nat)
    (h : p.step e = some p') (hi : p.exited i = true) : p'.exited i = true := by
  cases e with
  | submit task =>
    simp only [StaticThreadPool.step, Option.some.injEq] at h
    subst h; exact hi
  | work u =>
    simp only [StaticThreadPool.step] at h
    split at h
    · rcases StaticThreadPool.WorkerRoutine_cases p p' u h with
        ⟨_, _, rfl⟩ | ⟨_, _, _, rfl⟩ | ⟨_, _, _, _, rfl⟩
      · exact hi
      · show Function.update p.exited u true i = true
        by_cases hiu : i = u
        · subst hiu; simp
        · rw [Function.update_noteq hiu]; exact hi
      · exact hi
    · simp at h
  | callJoin =>
    simp only [StaticThreadPool.step] at h
    split at h
    · simp only [Option.some.injEq] at h
      subst h; exact hi
    · simp at h
  | joinStep =>
    simp only [StaticThreadPool.step, StaticThreadPool.Join] at h
    split at h
    · simp at h
    · split at h <;> simp only [Option.some.injEq] at h <;> subst h <;> exact hi
    · split at h
      · split at h
        · split at h
          · simp only [Option.some.injEq] at h
            subst h; exact hi
          · simp at h
        · simp only [Option.some.injEq] at h
          subst h; exact hi
      · simp only [Option.some.injEq] at h
        subst h; exact hi

/-- Every event appends to the history of what was put. -/
theorem StaticThreadPool.step_put (p p' : StaticThreadPool) (e : PoolEvent)
    (h : p.step e = some p') : ∃ l, p'.put = p.put ++ l := by
  cases e with
  | submit task =>
    simp only [StaticThreadPool.step, Option.some.injEq] at h
    subst h; exact ⟨[task], rfl⟩
  | work u =>
    simp only [StaticThreadPool.step] at h
    split at h
    · rcases StaticThreadPool.WorkerRoutine_cases p p' u h with
        ⟨_, _, rfl⟩ | ⟨_, _, _, rfl⟩ | ⟨_, _, _, _, rfl⟩ <;>
        exact ⟨[], (List.append_nil _).symm⟩
    · simp at h
  | callJoin =>
    simp only [StaticThreadPool.step] at h
    split at h
    · simp only [Option.some.injEq] at h
      subst h; exact ⟨[], (List.append_nil _).symm⟩
    · simp at h
  | joinStep =>
    simp only [StaticThreadPool.step, StaticThreadPool.Join] at h
    split at h
    · simp at h
    · split at h
      · simp only [Option.some.injEq] at h
        subst h; exact ⟨[none], rfl⟩
      · simp only [Option.some.injEq] at h
        subst h; exact ⟨[], (List.append_nil _).symm⟩
    · split at h
      · split at h
        · split at h
          · simp only [Option.some.injEq] at h
            subst h; exact ⟨[], (List.append_nil _).symm⟩
          · simp at h
        · simp only [Option.some.injEq] at h
          subst h; exact ⟨[], (List.append_nil _).symm⟩
      · simp only [Option.some.injEq] at h
        subst h; exact ⟨[], (List.append_nil _).symm⟩

/-- Every execution appends to the history of what was put. -/
theorem StaticThreadPool.run_put (ops : List PoolEvent) :
    ∀ p p' : StaticThreadPool, p.run ops = some p' → ∃ l, p'.put = p.put ++ l := by
  induction ops with
  | nil =>
    intro p p' h
    simp only [StaticThreadPool.run, runTrace, Option.some.injEq] at h
    subst h
    exact ⟨[], (List.append_nil _).symm⟩
  | cons e es ih =>
    intro p p' h
    simp only [StaticThreadPool.run, runTrace] at h
    cases hs : p.step e with
    | none => simp [hs] at h
    | some m =>
      rw [hs] at h
      obtain ⟨l1, h1⟩ := StaticThreadPool.step_put p m e hs
      obtain ⟨l2, h2⟩ := ih m p' h
      exact ⟨l1 ++ l2, by rw [h2, h1, List.append_assoc]⟩

/-- Every enabled event keeps the invariant of a pool with one worker. -/
theorem StaticThreadPool.OneWorker.step_oneWorker {p p' : StaticThreadPool} (hp : p.OneWorker)
    (e : PoolEvent) (h : p.step e = some p') : p'.OneWorker := by
  obtain ⟨hw, htaken⟩ := hp
  refine ⟨(StaticThreadPool.step_workers p p' e h).trans hw, ?_⟩
  cases e with
  | submit task =>
    simp only [StaticThreadPool.step, Option.some.injEq] at h
    subst h; exact htaken
  | work u =>
    simp only [StaticThreadPool.step] at h
    split at h
    · rename_i hguard
      have hu : u = 0 := by omega
      subst hu
      have hex := hguard.2
      rcases StaticThreadPool.WorkerRoutine_cases p p' 0 h with
        ⟨id, hrun, rfl⟩ | ⟨rest, hrun, hb, rfl⟩ | ⟨id, rest, hrun, hb, rfl⟩
      · simp [htaken, hex, hrun]
      · simp [htaken, hex, hrun]
      · simp [htaken, hex, hrun]
    · simp at h
  | callJoin =>
    simp only [StaticThreadPool.step] at h
    split at h
    · simp only [Option.some.injEq] at h
      subst h; exact htaken
    · simp at h
  | joinStep =>
    simp only [StaticThreadPool.step, StaticThreadPool.Join] at h
    split at h
    · simp at h
    · split at h <;> simp only [Option.some.injEq] at h <;> subst h <;> exact htaken
    · split at h
      · split at h
        · split at h
          · simp only [Option.some.injEq] at h
            subst h; exact htaken
          · simp at h
        · simp only [Option.some.injEq] at h
          subst h; exact htaken
      · simp only [Option.some.injEq] at h
        subst h; exact htaken

/-- With one consumer that stops at the first empty item: what it has run lies
before the empty item, and what was put after the empty item is still queued. -/
theorem queue_after_empty_item (R A B buf : List TaskType) (opt : List TaskType)
    (ids : List Nat) (hR : R = ids.map some) (hopt : opt = [] ∨ opt = [none])
    (h : (R ++ opt) ++ buf = A ++ [none] ++ B) :
    R <+: A ∧ ∃ front, buf = front ++ B := by
  have hlen : R.length ≤ A.length := by
    by_contra hlt
    have hlt' : A.length < R.length := by omega
    have h1 : ((R ++ opt) ++ buf)[A.length]? = R[A.length]? := by
      rw [List.append_assoc, List.getElem?_append_left hlt']
    have h2 : (A ++ [none] ++ B)[A.length]? = some none := by
      rw [List.append_assoc, List.getElem?_append_right (le_refl _)]
      simp
    rw [h, h2, hR] at h1
    simp only [List.getElem?_map] at h1
    cases hget : ids[A.length]? with
    | none => simp [hget] at h1
    | some x => simp [hget] at h1
  have hR' : R <+: A ++ [none] ++ B := ⟨opt ++ buf, by rw [← h, List.append_assoc]⟩
  have hA' : A <+: A ++ [none] ++ B := ⟨[none] ++ B, by rw [List.append_assoc]⟩
  have hRA : R <+: A := List.prefix_of_prefix_length_le hR' hA' hlen
  refine ⟨hRA, ?_⟩
  have hm : (R ++ opt).length ≤ (A ++ [none]).length := by
    rcases hopt with rfl | rfl <;> simp <;> omega
  have hdrop := congrArg (List.drop (R ++ opt).length) h
  rw [List.drop_left, List.drop_append_of_le_length hm] at hdrop
  exact ⟨_, hdrop⟩

/-- C10: `SubmitTask` puts an empty task into the queue exactly as `Join()` puts
its poison pill; a worker at `Take()` that takes an empty task at the head of
the queue records nothing, leaves its loop and never steps again, so that it
takes no other item and calls no task; and in a pool with one worker, in every
state reached after an empty task and later a task `a` were submitted (whatever
happened before, between and after), the tasks run were all put before the
empty task and `a` is still in the queue. -/
theorem empty_task_stops_worker :
    (∀ p : StaticThreadPool, (p.SubmitTask none).tasks_ = p.tasks_.Put none)
      ∧ (∀ (p : StaticThreadPool) (i : Nat) (rest : List TaskType), i < p.workers_ →
          p.exited i = false → p.running i = none → p.tasks_.buffer_ = none :: rest →
          ∃ p', p.step (.work i) = some p' ∧ p'.record = p.record ∧ p'.tasks_.buffer_ = rest
            ∧ p'.exited i = true
            ∧ ∀ ops p'', p'.run ops = some p'' →
                p''.exited i = true ∧ p''.step (.work i) = none)
      ∧ (∀ (pre mid post : List PoolEvent) (a : Nat) (p1 p : StaticThreadPool),
          StaticThreadPool.run (StaticThreadPool.new 1) pre = some p1 →
          StaticThreadPool.run (StaticThreadPool.new 1)
            (pre ++ .submit none :: (mid ++ .submit (some a) :: post)) = some p →
          p.record.map some <+: p1.put ∧ some a ∈ p.tasks_.buffer_) := by
  refine ⟨fun p => rfl, ?_, ?_⟩
  · intro p i rest hi hex hrun hbuf
    refine ⟨{ p with
        tasks_ := ⟨rest⟩
        taken := p.taken ++ [none]
        exited := Function.update p.exited i true
        stops := Function.update p.stops i (p.stops i + 1) }, ?_, rfl, rfl, by simp, ?_⟩
    · simp [StaticThreadPool.step, hi, hex, hrun, StaticThreadPool.WorkerRoutine,
        BlockingQueue.Take, BlockingQueue.TakeLocked, hbuf]
    · intro ops p'' hrun
      have hex'' : p''.exited i = true :=
        runTrace_invariant StaticThreadPool.step (fun q => q.exited i = true) ops
          (fun e _ a b ha hab => StaticThreadPool.step_exited a b e i hab ha) _ p''
          (by simp) hrun
      exact ⟨hex'', by simp [StaticThreadPool.step, hex'']⟩
  · intro pre mid post a p1 p h1 h
    have hrun := h
    simp only [StaticThreadPool.run] at h1 h
    obtain ⟨a1, b1, ha1, hb1, hrest⟩ := runTrace_split _ _ _ _ _ _ h
    rw [h1] at ha1
    obtain rfl : p1 = a1 := Option.some.inj ha1
    obtain ⟨a2, b2, ha2, hb2, hpost⟩ := runTrace_split _ _ _ _ _ _ hrest
    have hput1 : b1.put = p1.put ++ [none] := by
      simp only [StaticThreadPool.step, Option.some.injEq] at hb1
      subst hb1; rfl
    have hput2 : b2.put = a2.put ++ [some a] := by
      simp only [StaticThreadPool.step, Option.some.injEq] at hb2
      subst hb2; rfl
    obtain ⟨l1, hl1⟩ := StaticThreadPool.run_put mid b1 a2 ha2
    obtain ⟨l2, hl2⟩ := StaticThreadPool.run_put post b2 p hpost
    have hput : p.put = p1.put ++ [none] ++ (l1 ++ [some a] ++ l2) := by
      rw [hl2, hput2, hl1, hput1]
      simp
    have hfifo := (StaticThreadPool.run_always 1 _ p hrun).1.fifo
    have hone : p.OneWorker :=
      runTrace_invariant StaticThreadPool.step StaticThreadPool.OneWorker _
        (fun e _ a b ha hab => ha.step_oneWorker e hab) (StaticThreadPool.new 1) p
        ⟨rfl, rfl⟩ hrun
    rw [hone.2, hput] at hfifo
    obtain ⟨hpre, front, hfront⟩ := queue_after_empty_item
      ((p.record ++ (p.running 0).toList).map some) p1.put
      (l1 ++ [some a] ++ l2) p.tasks_.buffer_ (if p.exited 0 then [none] else [])
      (p.record ++ (p.running 0).toList) rfl (by split <;> simp) hfifo
    refine ⟨?_, by rw [hfront]; simp⟩
    refine List.IsPrefix.trans ?_ hpre
    rw [List.map_append]
    exact List.prefix_append _ _

/-- One worker; task 1 is taken and run, then an empty task and task 2 are
submitted, the worker takes the empty task and leaves: task 2 is not run and
stays queued. -/
theorem empty_task_stops_worker_witness :
    ∃ p1 p, StaticThreadPool.run (StaticThreadPool.new 1)
          [.submit (some 1), .work 0, .work 0] = some p1
      ∧ StaticThreadPool.run (StaticThreadPool.new 1)
          ([.submit (some 1), .work 0, .work 0]
            ++ .submit none :: ([] ++ .submit (some 2) :: [.work 0]))
          = some p
      ∧ p.exited 0 = true ∧ p.record = [1] ∧ p.tasks_.buffer_ = [some 2]
      ∧ p.step (.work 0) = none
      ∧ (p.record.map some <+: p1.put ∧ some 2 ∈ p.tasks_.buffer_) :=
  ⟨_, _, rfl, rfl, rfl, rfl, rfl, rfl,
    empty_task_stops_worker.2.2 [.submit (some 1), .work 0, .work 0] [] [.work 0] 2 _ _ rfl rfl⟩
end concurrent
